import Mathlib

/-!
Verification of the segmented sieve of Eratosthenes from
`src/segmented_sieve.cpp`.

The C++ function `segmented_sieve(int64_t limit)` is shallowly embedded
below.  Conventions of the embedding:

* `int64_t` values are modelled as `Nat` (all loop variables of the
  program are provably non-negative for a non-negative `limit`) except
  the entries of the `indexes` vector, which are modelled as `Int`
  because the program stores `j - segment_size` there, a value that is
  only non-negative by a non-trivial invariant (claim C7).  Arithmetic
  is unbounded: no quantity of the program overflows `int64_t` for any
  `limit` for which the program's vectors are allocatable.
* the library pipeline `(int64_t) std::sqrt(x)` — an `int64_t` to
  `double` conversion, a correctly rounded `double` square root, and a
  truncating cast, none of it code of this repository — does *not*
  always produce the exact integer square root: on the program's input
  range its value is `⌊√x⌋` or `⌊√x⌋ + 1`, and the larger value is
  attained, e.g. at `x = 2^62 - 1`.  The run is therefore defined
  generically in the function `f` standing for this pipeline
  (`segmentStepF`, `segLoopF`, …): `DoubleSqrt f` is the contract
  (bounds and monotonicity) every faithful `f` satisfies on the
  `int64_t` range, `double_sqrt` is the exact bit-level model of the
  pipeline used at concrete inputs, and the `Nat.sqrt` instantiation
  (`segmentStep`, `segLoop`, …) is used by the claims whose statements
  are insensitive to the one-sided rounding — in particular the count
  is proved equal to the number of primes for *every* `f` satisfying
  the contract.  For a negative `limit` the C++ expression casts `NaN`
  to `int64_t`, which is undefined behaviour; the top-level wrapper
  `segmented_sieve` therefore returns `none` for negative inputs.
* `std::vector<char>` / `std::vector<int64_t>` are modelled as `List
  Bool` / `List Int`; element reads are `List.getD` and writes are
  `List.set`.  All accesses performed by the program are proved to be
  in bounds (claim C6), where the `getD` defaults are irrelevant.
* each `for` loop becomes a recursive function; loops whose guards the
  program relies on for termination (`j += k` with `k = primes[i]*2`)
  carry the positivity of the step in their guard, which is invariant
  in every reachable call.
-/

/-- Set your CPU's L1 data cache size (in bytes) here (`L1D_CACHE_SIZE`). -/
def L1D_CACHE_SIZE : Nat := 32768

/-! ### The library square-root pipeline

The program computes `sqrt = (int64_t) std::sqrt(limit)` and, per
segment, `sqrt_high = (int64_t) std::sqrt(high)`.  That computation is
standard-library/hardware code outside this repository: the `int64_t`
argument is converted to `double` (round to nearest, ties to even, 53
significant bits), IEEE 754 square root is correctly rounded, and the
cast back to `int64_t` truncates.  It is modelled twice below:
`double_sqrt` is the exact integer-arithmetic model of the pipeline,
used to evaluate it at concrete inputs, and `DoubleSqrt f` is the
contract — never below `⌊√x⌋`, above it by at most one, monotone —
that the pipeline satisfies on the program's input range `x < 2^63`,
under which the run-level theorems below are proved for every
admissible pipeline behaviour `f`. -/

/-- Bit length, with structural fuel (64 suffices for any `int64_t`
value): `bits64 n` is the number of binary digits of `n < 2^64`. -/
def bitsAux : Nat → Nat → Nat
  | 0, _ => 0
  | fuel + 1, n => if n = 0 then 0 else bitsAux fuel (n / 2) + 1

def bits64 (n : Nat) : Nat := bitsAux 64 n

/-- The `double` nearest to the integer `x < 2^63` (round to nearest,
ties to even): `x` itself if it fits in 53 bits, otherwise `x` rounded
to the nearest multiple of `2^(bits64 x - 53)`, a tie going to the even
multiple.  This is the exact value of the C++ conversion
`(double) x` on the `int64_t` range. -/
def roundNearest53 (x : Nat) : Nat :=
  if x < 2 ^ 53 then x
  else
    let k := bits64 x - 53
    let q := x / 2 ^ k
    let r := x % 2 ^ k
    let half := 2 ^ (k - 1)
    if half < r ∨ (r = half ∧ q % 2 = 1) then (q + 1) * 2 ^ k else q * 2 ^ k

/-- Whether the correctly rounded `double` square root of the integer
`y` (with `s = ⌊√y⌋`, so `s < 2^32` here and every integer of
`[s, s+1]` is exactly representable) rounds up to `s + 1`: this happens
exactly when `√y` exceeds `s + 1` minus half the spacing of `double`s
immediately below `s + 1` — that spacing is `2^(t-53)` when
`s + 1 = 2^t` and `2^(t-52)` when `2^t < s + 1 < 2^(t+1)` — so the cut
is at `(s+1) - 2^(-sh)` with `sh` as below, and squaring both sides
turns the comparison into the exact integer comparison
`(m·2^sh - 1)^2 < y·4^sh`.  A tie is impossible: it would make `√y` a
rational with an odd numerator over a positive power of two.  Because
`s ≤ √y` and `s` is representable, the rounded root is never below
`s`; the truncating cast therefore yields `s + 1` exactly in this case
and `s` otherwise. -/
def crdBumps (y s : Nat) : Bool :=
  let m := s + 1
  let t := bits64 m - 1
  let sh := if m = 2 ^ t then 54 - t else 53 - t
  decide ((m * 2 ^ sh - 1) ^ 2 < y * 4 ^ sh)

/-- Exact model of the pipeline `(int64_t) std::sqrt((double) x)` on
the `int64_t` range: round `x` to the nearest `double`, take the
correctly rounded square root, truncate. -/
def double_sqrt (x : Nat) : Nat :=
  let y := roundNearest53 x
  let s := Nat.sqrt y
  if crdBumps y s then s + 1 else s

/-- The contract of the square-root pipeline on the program's input
range: the result never falls below `⌊√x⌋` (the conversion's relative
error is below `2^-53`, far smaller than half the spacing of `double`s
near `√x`, so the correctly rounded root still lands at `⌊√x⌋` or
above), it exceeds `⌊√x⌋` by at most one (the combined relative error
of the three stages is far below one unit in this range), and the
pipeline is monotone (each stage is).  `Nat.sqrt` itself satisfies the
contract, so the exact integer square root is one admissible pipeline
behaviour. -/
def DoubleSqrt (f : Nat → Nat) : Prop :=
  (∀ x, Nat.sqrt x ≤ f x) ∧ (∀ x, f x ≤ Nat.sqrt x + 1) ∧
    ∀ x y, x ≤ y → f x ≤ f y

theorem doubleSqrt_natSqrt : DoubleSqrt Nat.sqrt :=
  ⟨fun _ => le_refl _, fun _ => Nat.le_succ _, fun _ _ h => Nat.sqrt_le_sqrt h⟩

/-- `int64_t segment_size = std::max(sqrt, L1D_CACHE_SIZE);` where
`sqrt = (int64_t) std::sqrt(limit)` is modelled by the pipeline
function `f`. -/
def segment_sizeF (f : Nat → Nat) (limit : Nat) : Nat := max (f limit) L1D_CACHE_SIZE

/-- The segment size under the exact-square-root instantiation
`f = Nat.sqrt` of the pipeline, used by the claims whose statements are
insensitive to the pipeline's one-sided rounding. -/
def segment_size (limit : Nat) : Nat := segment_sizeF Nat.sqrt limit

/-- The state carried across segments of the sieve: the three resumable
cursors `i` (base-sieve marking), `s` (sieving-prime collection) and `n`
(counting), the vectors `sieve`, `is_prime`, `primes`, `indexes`, and the
running `count`. -/
structure State where
  i : Nat
  s : Nat
  n : Nat
  sieve : List Bool
  is_prime : List Bool
  primes : List Nat
  indexes : List Int
  count : Nat

/-- Inner loop of the base sieve:
`for (int64_t j = i * i; j <= sqrt; j += i) is_prime[j] = false;`
(`bnd` is the program's `sqrt`; the step `i` is positive at every
reachable call, so the guard's `0 < i` conjunct is invariant). -/
def markMultiples (ip : List Bool) (j i bnd : Nat) : List Bool :=
  if h : j ≤ bnd ∧ 0 < i then markMultiples (ip.set j false) (j + i) i bnd
  else ip
termination_by bnd + 1 - j
decreasing_by omega

/-- Outer loop of the base sieve:
`for (; i <= sqrt_high; i += 2) if (is_prime[i]) { ... }`.
Returns the updated `is_prime` vector and the final cursor `i`. -/
def extendSieve (ip : List Bool) (i sqrt_high bnd : Nat) : List Bool × Nat :=
  if h : i ≤ sqrt_high then
    extendSieve (if ip.getD i true then markMultiples ip (i * i) i bnd else ip)
      (i + 2) sqrt_high bnd
  else (ip, i)
termination_by sqrt_high + 1 - i
decreasing_by omega

/-- Sieving-prime collection loop:
`for (; s <= sqrt_high; s += 2) if (is_prime[s]) { primes.push_back(s);
indexes.push_back(s * s - low); }`.
Returns the extended `primes` and `indexes` vectors and the final
cursor `s`. -/
def collectPrimes (ip : List Bool) (s sqrt_high low : Nat)
    (primes : List Nat) (indexes : List Int) : List Nat × List Int × Nat :=
  if h : s ≤ sqrt_high then
    if ip.getD s true then
      collectPrimes ip (s + 2) sqrt_high low (primes ++ [s])
        (indexes ++ [((s * s : Nat) : Int) - (low : Int)])
    else collectPrimes ip (s + 2) sqrt_high low primes indexes
  else (primes, indexes, s)
termination_by sqrt_high + 1 - s
decreasing_by all_goals omega

/-- Inner marking loop of the segmented sieve:
`for (int64_t k = primes[i] * 2; j < segment_size; j += k)
sieve[j] = false;`.
Returns the marked working sieve and the final value of `j` (the step
`k = primes[i] * 2` is positive at every reachable call). -/
def markSieve (sv : List Bool) (j : Int) (k : Nat) (S : Nat) : List Bool × Int :=
  if h : j < (S : Int) ∧ 0 < k then markSieve (sv.set j.toNat false) (j + k) k S
  else (sv, j)
termination_by ((S : Int) - j).toNat
decreasing_by
  have h1 := h.1
  have h2 := h.2
  omega

/-- Outer marking loop of the segmented sieve:
`for (std::size_t i = 0; i < primes.size(); i++) { int64_t j = indexes[i];
... ; indexes[i] = j - segment_size; }`; the two vectors are traversed in
lockstep and each `indexes` entry is overwritten with `j - segment_size`. -/
def markAll (sv : List Bool) (ps : List Nat) (ixs : List Int) (S : Nat) :
    List Bool × List Int :=
  match ps, ixs with
  | [], rest => (sv, rest)
  | _ :: _, [] => (sv, [])
  | p :: ps1, x :: ixs1 =>
    let r := markSieve sv x (p * 2) S
    let rest := markAll r.1 ps1 ixs1 S
    (rest.1, (r.2 - (S : Int)) :: rest.2)

/-- Counting loop: `for (; n <= high; n += 2) if (sieve[n - low]) count++;`.
Returns the updated count and the final cursor `n`. -/
def countLoop (sv : List Bool) (n high low count : Nat) : Nat × Nat :=
  if h : n ≤ high then
    countLoop sv (n + 2) high low (if sv.getD (n - low) false then count + 1 else count)
  else (count, n)
termination_by high + 1 - n
decreasing_by omega

/-- One iteration of the program's outer loop body, for the segment
starting at `low`: refill the working sieve, compute `high` and
`sqrt_high = f(high)` (the square-root pipeline applied to `high`),
extend the base sieve, collect new sieving primes, mark the working
sieve, and count the surviving odd values.  `S` is `segment_size` and
`bnd` is the program's `sqrt`. -/
def segmentStepF (f : Nat → Nat) (limit S bnd low : Nat) (st : State) : State :=
  let sieve0 := List.replicate st.sieve.length true
  let high := min (low + S - 1) limit
  let sqrt_high := f high
  let e := extendSieve st.is_prime st.i sqrt_high bnd
  let c := collectPrimes e.1 st.s sqrt_high low st.primes st.indexes
  let m := markAll sieve0 c.1 c.2.1 S
  let cl := countLoop m.1 st.n high low st.count
  { i := e.2, s := c.2.2, n := cl.2, sieve := m.1, is_prime := e.1,
    primes := c.1, indexes := m.2, count := cl.1 }

/-- The loop body under the exact-square-root instantiation of the
pipeline. -/
def segmentStep (limit S bnd low : Nat) (st : State) : State :=
  segmentStepF Nat.sqrt limit S bnd low st

/-- The program's outer loop:
`for (int64_t low = 0; low <= limit; low += segment_size) { ... }`
(the step `S = segment_size` is positive for every input, so the
guard's `0 < S` conjunct is invariant). -/
def segLoopF (f : Nat → Nat) (limit S bnd low : Nat) (st : State) : State :=
  if h : low ≤ limit ∧ 0 < S then
    segLoopF f limit S bnd (low + S) (segmentStepF f limit S bnd low st)
  else st
termination_by limit + 1 - low
decreasing_by omega

/-- The outer loop under the exact-square-root instantiation of the
pipeline. -/
def segLoop (limit S bnd low : Nat) (st : State) : State :=
  segLoopF Nat.sqrt limit S bnd low st

/-- The locals of `segmented_sieve` just before the outer loop starts,
with the working sieve buffer's initial contents abstracted as `buf`
(the program value-initialises it to all-`false` and refills it at the
start of every segment); `is_prime` has `sqrt + 1 = f(limit) + 1`
entries, all `true`. -/
def initialStateF (f : Nat → Nat) (limit : Nat) (buf : List Bool) : State :=
  { i := 3, s := 3, n := 3,
    sieve := buf,
    is_prime := List.replicate (f limit + 1) true,
    primes := [], indexes := [],
    count := if limit < 2 then 0 else 1 }

/-- The initial locals under the exact-square-root instantiation of the
pipeline. -/
def initialState (limit : Nat) (buf : List Bool) : State :=
  initialStateF Nat.sqrt limit buf

/-- The count computed by `segmented_sieve(limit)` for a non-negative
`limit` with pipeline behaviour `f`, starting from an arbitrary initial
working-sieve buffer. -/
def segmented_sieve_countFromF (f : Nat → Nat) (buf : List Bool) (limit : Nat) : Nat :=
  (segLoopF f limit (segment_sizeF f limit) (f limit) 0 (initialStateF f limit buf)).count

/-- The count computed by `segmented_sieve(limit)` for a non-negative
`limit`, starting from an arbitrary initial working-sieve buffer, under
the exact-square-root instantiation of the pipeline (the count is
proved equal to the number of primes `≤ limit` for every pipeline
behaviour satisfying `DoubleSqrt`, so this instantiation loses no
generality for count-level claims). -/
def segmented_sieve_countFrom (buf : List Bool) (limit : Nat) : Nat :=
  segmented_sieve_countFromF Nat.sqrt buf limit

/-- The count printed by `segmented_sieve(limit)` for a non-negative
`limit` (the program allocates `std::vector<char> sieve(segment_size)`,
i.e. `segment_size` zero-initialised entries). -/
def segmented_sieve_count (limit : Nat) : Nat :=
  segmented_sieve_countFrom (List.replicate (segment_size limit) false) limit

/-- `segmented_sieve` on an arbitrary `int64_t` input.  For a negative
`limit` the program evaluates `(int64_t) std::sqrt(limit)`, a cast of
`NaN` that is undefined behaviour (and the resulting `is_prime`
allocation of `sqrt + 1` elements is unsatisfiable), so no count is
returned; this is modelled as `none`. -/
def segmented_sieve (limit : Int) : Option Nat :=
  if limit < 0 then none else some (segmented_sieve_count limit.toNat)

/-- The state of `segmented_sieve`'s locals at the start of iteration
`k` of the outer loop (segment `k` covers `[k * segment_size,
(k+1) * segment_size - 1]` clipped to `limit`), with pipeline
behaviour `f`. -/
def stateAtF (f : Nat → Nat) (limit : Nat) : Nat → State
  | 0 => initialStateF f limit (List.replicate (segment_sizeF f limit) false)
  | k + 1 => segmentStepF f limit (segment_sizeF f limit) (f limit)
      (k * segment_sizeF f limit) (stateAtF f limit k)

/-- The per-iteration state under the exact-square-root instantiation
of the pipeline. -/
def stateAt (limit : Nat) : Nat → State := stateAtF Nat.sqrt limit

/-! ### Specification-side definitions -/

/-- Kernel-computable trial-division auxiliary: scans candidate divisors
`d, d+1, …` (with structural fuel), answering whether `n` has no divisor
`m` with `d ≤ m` and `m * m ≤ n`. -/
def isPrimeAuxB (n : Nat) : Nat → Nat → Bool
  | _, 0 => true
  | d, fuel + 1 =>
    if n < d * d then true
    else if n % d == 0 then false
    else isPrimeAuxB n (d + 1) fuel

/-- Kernel-computable primality test by trial division. -/
def isPrimeB (n : Nat) : Bool := if n < 2 then false else isPrimeAuxB n 2 n

/-- Kernel-computable count of primes `< n`. -/
def countPrimesBelow : Nat → Nat
  | 0 => 0
  | n + 1 => countPrimesBelow n + (if isPrimeB n then 1 else 0)

/-- The number of primes `≤ limit`. -/
def primeCount (limit : Nat) : Nat := ((Finset.range (limit + 1)).filter Nat.Prime).card

/-- The number of odd values `v` with `a ≤ v ≤ b` satisfying `P`. -/
def oddCount (P : Nat → Prop) [DecidablePred P] (a b : Nat) : Nat :=
  ((Finset.Icc a b).filter (fun v => v % 2 = 1 ∧ P v)).card

/-- The set of absolute positions the sieving prime `p` ever marks:
`p*p, p*p + 2p, p*p + 4p, …` (the odd multiples `p·m`, `m ≥ p`). -/
def inChain (p v : Nat) : Prop := ∃ t : Nat, v = p * p + 2 * p * t

/-- The invariant tying the `indexes` entry `x` of sieving prime `p` to
the segment start `low`: `x` is non-negative and `low + x` is the
smallest value of the form `p*p + 2*p*t` that is `≥ low`. -/
def IdxInv (low p : Nat) (x : Int) : Prop :=
  0 ≤ x ∧ ∃ t : Nat, x + (low : Int) = (p : Int) * p + 2 * p * t ∧
    (t = 0 ∨ x < 2 * (p : Int))

/-- The offset value asserted by claim C2 as stated: `p*p + k*p - low`
for the smallest `k : ℕ` making it non-negative, i.e. the next multiple
of `p` that is `≥ max(p*p, low)`, relative to `low`. -/
def specOffset (p low : Nat) : Int :=
  if low ≤ p * p then ((p * p : Nat) : Int) - (low : Int)
  else (((p * p : Nat) : Int) - (low : Int)) % (p : Int)

/-- The offset value the program actually maintains: `p*p + 2*k*p - low`
for the smallest `k : ℕ` making it non-negative, i.e. the next *odd*
multiple of `p` that is `≥ max(p*p, low)`, relative to `low`. -/
def amendedOffset (p low : Nat) : Int :=
  if low ≤ p * p then ((p * p : Nat) : Int) - (low : Int)
  else (((p * p : Nat) : Int) - (low : Int)) % ((2 * p : Nat) : Int)

/-! ### Generic list-access helpers -/

theorem getD_set_ne {i v : Nat} (l : List Bool) (b d : Bool) (h : i ≠ v) :
    (l.set i b).getD v d = l.getD v d := by
  simp [List.getD_eq_getElem?_getD, List.getElem?_set, h]

theorem getD_set_false (l : List Bool) (i : Nat) :
    (l.set i false).getD i false = false := by
  by_cases h : i < l.length
  · simp [List.getD_eq_getElem?_getD, List.getElem?_set, h]
  · have : l.set i false = l := List.set_eq_of_length_le (by omega)
    rw [this, List.getD_eq_getElem?_getD, List.getElem?_eq_none (by omega)]
    rfl

theorem getD_replicate {n v : Nat} (a d : Bool) (h : v < n) :
    (List.replicate n a).getD v d = a := by
  simp [List.getD_eq_getElem?_getD, List.getElem?_replicate, h]

/-- Determines `Nat.sqrt` at concrete values without kernel reduction. -/
theorem sqrt_eq_of {n a : Nat} (h1 : a * a ≤ n) (h2 : n < (a + 1) * (a + 1)) :
    Nat.sqrt n = a := (Nat.eq_sqrt.mpr ⟨h1, h2⟩).symm

/-! ### The base-sieve inner marking loop -/

theorem markMultiples_length (ip : List Bool) (j i bnd : Nat) :
    (markMultiples ip j i bnd).length = ip.length := by
  by_cases h : j ≤ bnd ∧ 0 < i
  · rw [markMultiples, dif_pos h, markMultiples_length, List.length_set]
  · rw [markMultiples, dif_neg h]
termination_by bnd + 1 - j
decreasing_by omega

theorem getD_irrel {l : List Bool} {v : Nat} (a b : Bool) (h : v < l.length) :
    l.getD v a = l.getD v b := by
  simp [List.getD_eq_getElem?_getD, List.getElem?_eq_getElem h]

theorem markMultiples_getD (ip : List Bool) (j i bnd v : Nat) (hi : 0 < i) :
    (markMultiples ip j i bnd).getD v false =
      if j ≤ v ∧ v ≤ bnd ∧ i ∣ (v - j) then false else ip.getD v false := by
  by_cases h : j ≤ bnd ∧ 0 < i
  · rw [markMultiples, dif_pos h, markMultiples_getD _ _ _ _ _ hi]
    by_cases hv : v = j
    · subst hv
      have hne : ¬ (v + i ≤ v ∧ v ≤ bnd ∧ i ∣ (v - (v + i))) := by
        rintro ⟨h1, -, -⟩; omega
      rw [if_neg hne, if_pos ⟨le_refl v, h.1, by simp⟩, getD_set_false]
    · rw [getD_set_ne _ _ _ (fun hh => hv hh.symm)]
      congr 1
      simp only [eq_iff_iff]
      constructor
      · rintro ⟨h1, h2, h3⟩
        refine ⟨by omega, h2, ?_⟩
        have hvj : v - j = (v - (j + i)) + i := by omega
        rw [hvj]; exact dvd_add h3 dvd_rfl
      · rintro ⟨h1, h2, h3⟩
        have hlt : j < v := lt_of_le_of_ne h1 (fun hh => hv hh.symm)
        have hge : i ≤ v - j := Nat.le_of_dvd (by omega) h3
        refine ⟨by omega, h2, ?_⟩
        have hvj : v - (j + i) = (v - j) - i := by omega
        rw [hvj]; exact Nat.dvd_sub' h3 dvd_rfl
  · rw [markMultiples, dif_neg h]
    have hj : bnd < j := by omega
    have hc : ¬ (j ≤ v ∧ v ≤ bnd ∧ i ∣ (v - j)) := by rintro ⟨h1, h2, -⟩; omega
    rw [if_neg hc]
termination_by bnd + 1 - j
decreasing_by omega

/-! ### The base-sieve outer loop and its invariant -/

/-- `v` has been struck from the base sieve by one of the odd primes
processed so far (the processed odds are those `< c`). -/
def struck (c v : Nat) : Prop :=
  ∃ d, Nat.Prime d ∧ d % 2 = 1 ∧ d < c ∧ d * d ≤ v ∧ d ∣ v

/-- Invariant of the `is_prime` vector with base-sieve cursor `c`: it
has `bnd + 1` entries and an odd entry `v ≤ bnd` is `false` exactly when
it has been struck by a processed odd prime. -/
def ipInv (bnd c : Nat) (ip : List Bool) : Prop :=
  ip.length = bnd + 1 ∧
  ∀ v, v ≤ bnd → v % 2 = 1 → (ip.getD v false = false ↔ struck c v)

theorem odd_prime_three_le {p : Nat} (hp : Nat.Prime p) (ho : p % 2 = 1) : 3 ≤ p := by
  have h2 := hp.two_le
  rcases hp.eq_two_or_odd with h | h <;> omega

theorem struck_not_prime {c v : Nat} (h : struck c v) : ¬ Nat.Prime v := by
  obtain ⟨d, hd, -, -, hdd, hdvd⟩ := h
  intro hv
  rcases hv.eq_one_or_self_of_dvd d hdvd with h1 | h1
  · exact absurd h1 (Nat.Prime.one_lt hd).ne'
  · subst h1; nlinarith [hv.two_le]

theorem not_prime_struck {c v : Nat} (h3 : 3 ≤ v) (ho : v % 2 = 1)
    (hsq : Nat.sqrt v < c) (h : ¬ Nat.Prime v) : struck c v := by
  have hne : v ≠ 1 := by omega
  have hp := Nat.minFac_prime hne
  have hdvd := Nat.minFac_dvd v
  have hsqle : v.minFac * v.minFac ≤ v := by
    have := Nat.minFac_sq_le_self (by omega) h
    nlinarith [sq_nonneg v.minFac, this, sq (v.minFac)]
  refine ⟨v.minFac, hp, ?_, ?_, hsqle, hdvd⟩
  · rcases hp.eq_two_or_odd with h2 | h2
    · exfalso
      have : (2 : Nat) ∣ v := h2 ▸ hdvd
      omega
    · exact h2
  · have : v.minFac ≤ Nat.sqrt v := Nat.le_sqrt.mpr hsqle
    omega

/-- Reading the base sieve at an odd position `v` whose square root's
range has been fully processed answers primality of `v`. -/
theorem ipInv_read {bnd c v : Nat} {ip : List Bool} (h : ipInv bnd c ip)
    (h3 : 3 ≤ v) (ho : v % 2 = 1) (hvb : v ≤ bnd) (hvc : Nat.sqrt v < c) :
    (ip.getD v true = true ↔ Nat.Prime v) := by
  have hlen : v < ip.length := by have := h.1; omega
  rw [getD_irrel true false hlen]
  have hiff := (h.2 v hvb ho)
  constructor
  · intro htrue
    by_contra hnp
    have := hiff.mpr (not_prime_struck h3 ho hvc hnp)
    rw [htrue] at this; cases this
  · intro hp
    cases hb : ip.getD v false
    · exact absurd (struck_not_prime (hiff.mp hb)) (by simpa using hp)
    · rfl

/-- Extending the base sieve to `B` preserves the `is_prime` invariant,
advancing the cursor to the first odd value past `B` (or leaving it in
place when it is already past `B`). -/
theorem extendSieve_inv (ip : List Bool) (c B bnd : Nat) (hodd : c % 2 = 1)
    (h3 : 3 ≤ c) (hB : B ≤ bnd) (hinv : ipInv bnd c ip) :
    ipInv bnd (extendSieve ip c B bnd).2 (extendSieve ip c B bnd).1 ∧
      (extendSieve ip c B bnd).2 % 2 = 1 ∧ c ≤ (extendSieve ip c B bnd).2 ∧
      B < (extendSieve ip c B bnd).2 ∧ (extendSieve ip c B bnd).2 ≤ max c (B + 2) := by
  by_cases h : c ≤ B
  · rw [extendSieve, dif_pos h]
    have hstep : ipInv bnd (c + 2)
        (if ip.getD c true then markMultiples ip (c * c) c bnd else ip) := by
      by_cases hr : ip.getD c true = true
      · rw [if_pos hr]
        have hcp : Nat.Prime c :=
          (ipInv_read hinv h3 hodd (by omega) (Nat.sqrt_lt_self (by omega))).mp hr
        refine ⟨by rw [markMultiples_length]; exact hinv.1, ?_⟩
        intro v hvb hvo
        rw [markMultiples_getD _ _ _ _ _ (by omega)]
        by_cases hm : c * c ≤ v ∧ v ≤ bnd ∧ c ∣ (v - c * c)
        · rw [if_pos hm]
          simp only [true_iff]
          refine ⟨c, hcp, hodd, by omega, hm.1, ?_⟩
          have hv : v = (v - c * c) + c * c := by omega
          rw [hv]
          exact dvd_add hm.2.2 (dvd_mul_left c c)
        · rw [if_neg hm, hinv.2 v hvb hvo]
          constructor
          · rintro ⟨d, hd, hdo, hdc, hdd, hdvd⟩
            exact ⟨d, hd, hdo, by omega, hdd, hdvd⟩
          · rintro ⟨d, hd, hdo, hdc, hdd, hdvd⟩
            have : d < c ∨ d = c := by omega
            rcases this with hlt | rfl
            · exact ⟨d, hd, hdo, hlt, hdd, hdvd⟩
            · exact absurd ⟨hdd, hvb, Nat.dvd_sub' hdvd (dvd_mul_left d d)⟩ hm
      · rw [if_neg hr]
        have hrf : ip.getD c false = false := by
          rw [← getD_irrel true false (by have := hinv.1; omega)]
          simpa using hr
        have hcs : struck c c := (hinv.2 c (by omega) hodd).mp hrf
        refine ⟨hinv.1, ?_⟩
        intro v hvb hvo
        rw [hinv.2 v hvb hvo]
        constructor
        · rintro ⟨d, hd, hdo, hdc, hdd, hdvd⟩
          exact ⟨d, hd, hdo, by omega, hdd, hdvd⟩
        · rintro ⟨d, hd, hdo, hdc, hdd, hdvd⟩
          have : d < c ∨ d = c := by omega
          rcases this with hlt | rfl
          · exact ⟨d, hd, hdo, hlt, hdd, hdvd⟩
          · exact absurd hd (struck_not_prime hcs)
    have ih := extendSieve_inv
      (if ip.getD c true then markMultiples ip (c * c) c bnd else ip)
      (c + 2) B bnd (by omega) (by omega) hB hstep
    refine ⟨ih.1, ih.2.1, by omega, ih.2.2.2.1, by omega⟩
  · rw [extendSieve, dif_neg h]
    exact ⟨hinv, hodd, le_refl c, by omega, by omega⟩
termination_by B + 1 - c
decreasing_by omega

/-- Collecting sieving primes: given that reading the (already extended)
base sieve at odd positions in `[s, B]` answers primality, the loop
appends exactly the odd primes of `[s, B]` in increasing order, each
paired with the initial offset `s*s - low`, and advances the cursor past
`B`. -/
theorem collectPrimes_spec (ip : List Bool) (B low : Nat)
    (hread : ∀ v, 3 ≤ v → v % 2 = 1 → v ≤ B → (ip.getD v true = true ↔ Nat.Prime v)) :
    ∀ s ps ixs, s % 2 = 1 → 3 ≤ s →
    (∀ p, p ∈ ps ↔ (Nat.Prime p ∧ p % 2 = 1 ∧ p < s)) →
    ps.Pairwise (· < ·) →
    List.Forall₂ (fun p x => IdxInv low p x) ps ixs →
    (∀ q, s ≤ q → q ≤ B → (low : Int) ≤ ((q * q : Nat) : Int)) →
    (∀ p, p ∈ (collectPrimes ip s B low ps ixs).1 ↔
        (Nat.Prime p ∧ p % 2 = 1 ∧ p < (collectPrimes ip s B low ps ixs).2.2)) ∧
      (collectPrimes ip s B low ps ixs).1.Pairwise (· < ·) ∧
      List.Forall₂ (fun p x => IdxInv low p x)
        (collectPrimes ip s B low ps ixs).1 (collectPrimes ip s B low ps ixs).2.1 ∧
      (collectPrimes ip s B low ps ixs).2.2 % 2 = 1 ∧
      s ≤ (collectPrimes ip s B low ps ixs).2.2 ∧
      B < (collectPrimes ip s B low ps ixs).2.2 ∧
      (collectPrimes ip s B low ps ixs).2.2 ≤ max s (B + 2) := by
  intro s ps ixs hodd h3 hmem hsort hpair hnew
  by_cases h : s ≤ B
  · rw [collectPrimes, dif_pos h]
    by_cases hr : ip.getD s true = true
    · rw [if_pos hr]
      have hsp : Nat.Prime s := (hread s h3 hodd h).mp hr
      have hmem2 : ∀ p, p ∈ ps ++ [s] ↔ (Nat.Prime p ∧ p % 2 = 1 ∧ p < s + 2) := by
        intro p
        rw [List.mem_append, List.mem_singleton, hmem p]
        constructor
        · rintro (⟨h1, h2, h3⟩ | rfl)
          · exact ⟨h1, h2, by omega⟩
          · exact ⟨hsp, hodd, by omega⟩
        · rintro ⟨h1, h2, h4⟩
          have : p < s ∨ p = s := by omega
          rcases this with h5 | h5
          · exact Or.inl ⟨h1, h2, h5⟩
          · exact Or.inr h5
      have hsort2 : (ps ++ [s]).Pairwise (· < ·) := by
        rw [List.pairwise_append]
        refine ⟨hsort, List.pairwise_singleton _ _, ?_⟩
        intro a ha b hb
        rw [List.mem_singleton] at hb
        subst hb
        exact ((hmem a).mp ha).2.2
      have hpair2 : List.Forall₂ (fun p x => IdxInv low p x) (ps ++ [s])
          (ixs ++ [((s * s : Nat) : Int) - (low : Int)]) := by
        refine List.rel_append hpair (List.Forall₂.cons ?_ List.Forall₂.nil)
        refine ⟨by have := hnew s (le_refl s) h; omega, 0, ?_, Or.inl rfl⟩
        push_cast
        ring
      have ih := collectPrimes_spec ip B low hread (s + 2) (ps ++ [s])
        (ixs ++ [((s * s : Nat) : Int) - (low : Int)]) (by omega) (by omega)
        hmem2 hsort2 hpair2 (fun q hq1 hq2 => hnew q (by omega) hq2)
      obtain ⟨i1, i2, i3, i4, i5, i6, i7⟩ := ih
      exact ⟨i1, i2, i3, i4, by omega, i6, by omega⟩
    · rw [if_neg hr]
      have hsnp : ¬ Nat.Prime s := fun hp => hr ((hread s h3 hodd h).mpr hp)
      have hmem2 : ∀ p, p ∈ ps ↔ (Nat.Prime p ∧ p % 2 = 1 ∧ p < s + 2) := by
        intro p
        rw [hmem p]
        constructor
        · rintro ⟨h1, h2, h3⟩; exact ⟨h1, h2, by omega⟩
        · rintro ⟨h1, h2, h4⟩
          have : p < s ∨ p = s := by omega
          rcases this with h5 | h5
          · exact ⟨h1, h2, h5⟩
          · subst h5; exact absurd h1 hsnp
      have ih := collectPrimes_spec ip B low hread (s + 2) ps ixs (by omega) (by omega)
        hmem2 hsort hpair (fun q hq1 hq2 => hnew q (by omega) hq2)
      obtain ⟨i1, i2, i3, i4, i5, i6, i7⟩ := ih
      exact ⟨i1, i2, i3, i4, by omega, i6, by omega⟩
  · rw [collectPrimes, dif_neg h]
    exact ⟨hmem, hsort, hpair, hodd, le_refl s, show B < s by omega,
      show s ≤ max s (B + 2) by omega⟩
termination_by s => B + 1 - s
decreasing_by all_goals omega

/-! ### The segment marking loops -/

theorem markSieve_length (sv : List Bool) (j : Int) (k S : Nat) :
    (markSieve sv j k S).1.length = sv.length := by
  by_cases h : j < (S : Int) ∧ 0 < k
  · rw [markSieve, dif_pos h, markSieve_length, List.length_set]
  · rw [markSieve, dif_neg h]
termination_by ((S : Int) - j).toNat
decreasing_by
  have h1 := h.1
  have h2 := h.2
  omega

/-- The final `j` of the inner marking loop does not depend on the
sieve contents. -/
theorem markSieve_snd_indep (sv sv2 : List Bool) (j : Int) (k S : Nat) :
    (markSieve sv j k S).2 = (markSieve sv2 j k S).2 := by
  by_cases h : j < (S : Int) ∧ 0 < k
  · rw [markSieve, dif_pos h]
    conv_rhs => rw [markSieve, dif_pos h]
    exact markSieve_snd_indep _ _ _ _ _
  · rw [markSieve, dif_neg h]
    conv_rhs => rw [markSieve, dif_neg h]
termination_by ((S : Int) - j).toNat
decreasing_by
  have h1 := h.1
  have h2 := h.2
  omega

/-- Exact marking set of the inner loop: position `m` of the working
sieve is `false` afterwards iff it was `false` before or it is one of
the positions `j, j+k, j+2k, …` below `S`. -/
theorem markSieve_getD (sv : List Bool) (j : Int) (k S : Nat) (hk : 0 < k) (hj : 0 ≤ j)
    (m : Nat) :
    ((markSieve sv j k S).1.getD m false = false ↔
      ((m : Int) < S ∧ ∃ t : Nat, (m : Int) = j + k * t) ∨ sv.getD m false = false) := by
  by_cases h : j < (S : Int) ∧ 0 < k
  · rw [markSieve, dif_pos h]
    rw [markSieve_getD _ _ _ _ hk (by omega)]
    have hset : ((sv.set j.toNat false).getD m false = false ↔
        m = j.toNat ∨ sv.getD m false = false) := by
      constructor
      · intro hm
        by_cases hmj : m = j.toNat
        · exact Or.inl hmj
        · rw [getD_set_ne _ _ _ (fun hh => hmj hh.symm)] at hm
          exact Or.inr hm
      · rintro (rfl | hm)
        · exact getD_set_false sv j.toNat
        · by_cases hmj : m = j.toNat
          · subst hmj; exact getD_set_false sv j.toNat
          · rw [getD_set_ne _ _ _ (fun hh => hmj hh.symm)]
            exact hm
    rw [hset]
    constructor
    · rintro (⟨hm1, t, ht⟩ | hrest)
      · exact Or.inl ⟨hm1, t + 1, by push_cast at ht ⊢; linarith⟩
      · rcases hrest with rfl | hm
        · refine Or.inl ⟨by omega, 0, by omega⟩
        · exact Or.inr hm
    · rintro (⟨hm1, t, ht⟩ | hm)
      · rcases Nat.eq_zero_or_pos t with rfl | htp
        · refine Or.inr (Or.inl ?_)
          have : (m : Int) = j := by push_cast at ht; linarith
          omega
        · refine Or.inl ⟨hm1, t - 1, ?_⟩
          push_cast at ht ⊢
          have htt : (t : Int) - 1 = ((t - 1 : Nat) : Int) := by omega
          rw [← htt]
          linarith
      · exact Or.inr (Or.inr hm)
  · rw [markSieve, dif_neg h]
    have hSj : (S : Int) ≤ j := by
      rcases not_and_or.mp h with h1 | h1
      · omega
      · omega
    constructor
    · intro hm
      exact Or.inr hm
    · rintro (⟨hm1, t, ht⟩ | hm)
      · exfalso
        have : (0 : Int) ≤ (k : Int) * t := by positivity
        omega
      · exact hm
termination_by ((S : Int) - j).toNat
decreasing_by
  have h1 := h.1
  have h2 := h.2
  omega

/-- The final `j` of the inner marking loop is the first position of the
chain `j, j+k, j+2k, …` that is `≥ S` (when the loop runs at all). -/
theorem markSieve_snd_spec (sv : List Bool) (j : Int) (k S : Nat) (hk : 0 < k) :
    ∃ u : Nat, (markSieve sv j k S).2 = j + k * u ∧ (S : Int) ≤ (markSieve sv j k S).2 ∧
      (u = 0 ∨ (markSieve sv j k S).2 - k < S) := by
  by_cases h : j < (S : Int) ∧ 0 < k
  · rw [markSieve, dif_pos h]
    obtain ⟨u, hu1, hu2, hu3⟩ := markSieve_snd_spec (sv.set j.toNat false) (j + k) k S hk
    refine ⟨u + 1, by push_cast; linarith, hu2, ?_⟩
    rcases hu3 with rfl | hu3
    · right
      have := h.1
      omega
    · exact Or.inr hu3
  · rw [markSieve, dif_neg h]
    have hSj : (S : Int) ≤ j := by
      rcases not_and_or.mp h with h1 | h1
      · omega
      · omega
    exact ⟨0, by omega, hSj, Or.inl rfl⟩
termination_by ((S : Int) - j).toNat
decreasing_by
  have h1 := h.1
  have h2 := h.2
  omega

theorem markAll_length (S : Nat) :
    ∀ (ps : List Nat) (ixs : List Int) (sv : List Bool),
      (markAll sv ps ixs S).1.length = sv.length := by
  intro ps
  induction ps with
  | nil => intro ixs sv; rw [markAll]
  | cons p ps1 ih =>
    intro ixs sv
    match ixs with
    | [] => rw [markAll]
    | x :: ixs1 =>
      rw [markAll]
      simp only
      rw [ih, markSieve_length]

/-- Exact marking set of the outer marking loop: a position `m` of the
working sieve is `false` afterwards iff it was `false` before or some
`(prime, offset)` pair of the traversed vectors covers `m` by its
`offset, offset + 2*prime, …` chain below `S`. -/
theorem markAll_getD (S : Nat) :
    ∀ (ps : List Nat) (ixs : List Int) (sv : List Bool) (m : Nat),
      List.Forall₂ (fun p x => 0 < p ∧ 0 ≤ x) ps ixs →
      ((markAll sv ps ixs S).1.getD m false = false ↔
        sv.getD m false = false ∨ ∃ pr ∈ ps.zip ixs, (m : Int) < S ∧
          ∃ t : Nat, (m : Int) = pr.2 + (pr.1 * 2 : Nat) * t) := by
  intro ps
  induction ps with
  | nil =>
    intro ixs sv m hf
    cases hf
    rw [markAll]
    simp
  | cons p ps1 ih =>
    intro ixs sv m hf
    match ixs, hf with
    | x :: ixs1, List.Forall₂.cons hpx hf1 =>
      rw [markAll]
      simp only [List.zip_cons_cons]
      rw [ih _ _ _ hf1, markSieve_getD _ _ _ _ (by omega) hpx.2]
      constructor
      · rintro ((⟨hm1, ht⟩ | hm) | ⟨pr, hpr, hprm⟩)
        · exact Or.inr ⟨(p, x), List.mem_cons_self _ _, hm1, ht⟩
        · exact Or.inl hm
        · exact Or.inr ⟨pr, List.mem_cons_of_mem _ hpr, hprm⟩
      · rintro (hm | ⟨pr, hpr, hprm⟩)
        · exact Or.inl (Or.inr hm)
        · rcases List.mem_cons.mp hpr with rfl | hpr1
          · exact Or.inl (Or.inl hprm)
          · exact Or.inr ⟨pr, hpr1, hprm⟩

/-- The updated `indexes` vector: entry `i` becomes the inner loop's
final `j` for pair `i`, minus `segment_size` (stated with the loop's
final `j` recomputed from the initial working sieve, which is legitimate
since it does not depend on the sieve contents). -/
theorem markAll_snd (S : Nat) :
    ∀ (ps : List Nat) (ixs : List Int) (sv : List Bool), ps.length = ixs.length →
      (markAll sv ps ixs S).2 =
        List.zipWith (fun p x => (markSieve sv x (p * 2) S).2 - (S : Int)) ps ixs := by
  intro ps
  induction ps with
  | nil =>
    intro ixs sv hlen
    have hnil : ixs = [] := List.eq_nil_of_length_eq_zero hlen.symm
    subst hnil
    rw [markAll]
    rfl
  | cons p ps1 ih =>
    intro ixs sv hlen
    match ixs with
    | [] => simp at hlen
    | x :: ixs1 =>
      rw [markAll]
      simp only [List.zipWith_cons_cons]
      congr 1
      rw [ih ixs1 _ (by simpa using hlen)]
      refine List.zipWith_congr _ _ ps1 ixs1 (List.forall₂_iff_zip.mpr ⟨by simpa using hlen, ?_⟩)
      intro a b hab
      exact congrArg (fun z => z - (S : Int)) (markSieve_snd_indep _ _ _ _ _)

/-! ### Offset invariant across segments -/

/-- Marking a segment carries the offset invariant of a pair from
segment start `low` to segment start `low + S`. -/
theorem IdxInv_next (sv : List Bool) {low p : Nat} {x : Int} (S : Nat)
    (h3 : 3 ≤ p) (hinv : IdxInv low p x) :
    IdxInv (low + S) p ((markSieve sv x (p * 2) S).2 - (S : Int)) := by
  obtain ⟨hx0, t, hteq, hmin⟩ := hinv
  obtain ⟨u, hu1, hu2, hu3⟩ := markSieve_snd_spec sv x (p * 2) S (by omega)
  refine ⟨by omega, t + u, ?_, ?_⟩
  · push_cast
    push_cast at hteq hu1
    linarith
  · rcases hu3 with rfl | hu3
    · have hjx : (markSieve sv x (p * 2) S).2 = x := by
        push_cast at hu1
        linarith
      rcases hmin with rfl | hmin
      · exact Or.inl rfl
      · right
        push_cast
        omega
    · right
      push_cast
      push_cast at hu3
      omega

/-- The relative positions a pair `(p, x)` with the offset invariant
covers are exactly the chain positions of `p` translated by `low`. -/
theorem pair_marks_iff {low p : Nat} {x : Int} (hinv : IdxInv low p x) (h3 : 3 ≤ p)
    (m : Nat) :
    ((∃ t : Nat, (m : Int) = x + (p * 2 : Nat) * t) ↔ inChain p (low + m)) := by
  obtain ⟨hx0, t0, h0, hmin⟩ := hinv
  constructor
  · rintro ⟨t, ht⟩
    refine ⟨t0 + t, ?_⟩
    have hcast : ((low + m : Nat) : Int) = ((p * p + 2 * p * (t0 + t) : Nat) : Int) := by
      push_cast
      push_cast at ht h0
      linarith
    exact_mod_cast hcast
  · rintro ⟨t1, ht1⟩
    have hInt : (low : Int) + m = (p : Int) * p + 2 * p * t1 := by
      have hc : ((low + m : Nat) : Int) = ((p * p + 2 * p * t1 : Nat) : Int) := by
        exact_mod_cast congrArg Nat.cast ht1
      push_cast at hc
      linarith
    have htge : t0 ≤ t1 := by
      by_contra hc
      rcases hmin with rfl | hx2p
      · omega
      · have hle : (t1 : Int) ≤ (t0 : Int) - 1 := by omega
        have hmul : 2 * (p : Int) * t1 ≤ 2 * (p : Int) * ((t0 : Int) - 1) := by
          have hp0 : (0 : Int) ≤ 2 * (p : Int) := by positivity
          exact mul_le_mul_of_nonneg_left hle hp0
        have hm0 : (0 : Int) ≤ (m : Int) := by positivity
        nlinarith
    refine ⟨t1 - t0, ?_⟩
    have hsub : ((t1 - t0 : Nat) : Int) = (t1 : Int) - t0 := by omega
    push_cast
    rw [hsub]
    push_cast at h0
    linarith

/-! ### The counting loop -/

theorem oddCount_empty (P : Nat → Prop) [DecidablePred P] (a b : Nat) (h : b < a) :
    oddCount P a b = 0 := by
  unfold oddCount
  rw [Finset.Icc_eq_empty (by omega)]
  rfl

theorem oddCount_step (P : Nat → Prop) [DecidablePred P] (n high : Nat)
    (hodd : n % 2 = 1) (hn : n ≤ high) :
    oddCount P n high = (if P n then 1 else 0) + oddCount P (n + 2) high := by
  unfold oddCount
  have hsplit : (Finset.Icc n high).filter (fun v => v % 2 = 1 ∧ P v) =
      (if P n then {n} else ∅) ∪ (Finset.Icc (n + 2) high).filter (fun v => v % 2 = 1 ∧ P v) := by
    ext v
    by_cases hp : P n
    · rw [if_pos hp]
      simp only [Finset.mem_filter, Finset.mem_Icc, Finset.mem_union, Finset.mem_singleton]
      constructor
      · rintro ⟨⟨h1, h2⟩, h3, h4⟩
        by_cases hv : v = n
        · exact Or.inl hv
        · exact Or.inr ⟨⟨by omega, h2⟩, h3, h4⟩
      · rintro (rfl | ⟨⟨h1, h2⟩, h3, h4⟩)
        · exact ⟨⟨le_refl v, hn⟩, hodd, hp⟩
        · exact ⟨⟨by omega, h2⟩, h3, h4⟩
    · rw [if_neg hp]
      simp only [Finset.mem_filter, Finset.mem_Icc, Finset.empty_union]
      constructor
      · rintro ⟨⟨h1, h2⟩, h3, h4⟩
        have hv : v ≠ n := fun hh => hp (hh ▸ h4)
        exact ⟨⟨by omega, h2⟩, h3, h4⟩
      · rintro ⟨⟨h1, h2⟩, h3, h4⟩
        exact ⟨⟨by omega, h2⟩, h3, h4⟩
  rw [hsplit, Finset.card_union_of_disjoint]
  · congr 1
    by_cases hp : P n
    · rw [if_pos hp, if_pos hp, Finset.card_singleton]
    · rw [if_neg hp, if_neg hp, Finset.card_empty]
  · refine Finset.disjoint_left.mpr ?_
    intro v hv1 hv2
    rcases Finset.mem_filter.mp hv2 with ⟨hv3, -⟩
    rcases Finset.mem_Icc.mp hv3 with ⟨h1, -⟩
    by_cases hp : P n
    · rw [if_pos hp, Finset.mem_singleton] at hv1
      omega
    · rw [if_neg hp] at hv1
      exact absurd hv1 (Finset.not_mem_empty v)

/-- Splitting an odd count at a segment boundary: `d` is the first odd
value past `b`. -/
theorem oddCount_split (P : Nat → Prop) [DecidablePred P] (a b c d : Nat)
    (hd : d % 2 = 1) (had : a ≤ d) (hbd : b < d) (hdb : d ≤ b + 2) (hbc : b ≤ c) :
    oddCount P a c = oddCount P a b + oddCount P d c := by
  unfold oddCount
  have hsplit : (Finset.Icc a c).filter (fun v => v % 2 = 1 ∧ P v) =
      (Finset.Icc a b).filter (fun v => v % 2 = 1 ∧ P v) ∪
        (Finset.Icc d c).filter (fun v => v % 2 = 1 ∧ P v) := by
    ext v
    simp only [Finset.mem_filter, Finset.mem_Icc, Finset.mem_union]
    constructor
    · rintro ⟨⟨h1, h2⟩, h3, h4⟩
      by_cases hv : v ≤ b
      · exact Or.inl ⟨⟨h1, hv⟩, h3, h4⟩
      · exact Or.inr ⟨⟨by omega, h2⟩, h3, h4⟩
    · rintro (⟨⟨h1, h2⟩, h3, h4⟩ | ⟨⟨h1, h2⟩, h3, h4⟩)
      · exact ⟨⟨h1, by omega⟩, h3, h4⟩
      · exact ⟨⟨by omega, h2⟩, h3, h4⟩
  rw [hsplit, Finset.card_union_of_disjoint]
  refine Finset.disjoint_left.mpr ?_
  intro v hv1 hv2
  rcases Finset.mem_Icc.mp (Finset.mem_filter.mp hv1).1 with ⟨-, h2⟩
  rcases Finset.mem_Icc.mp (Finset.mem_filter.mp hv2).1 with ⟨h3, -⟩
  omega

/-- If two predicates agree on all odd values of `[a, b]`, the odd
counts agree. -/
theorem oddCount_congr (P Q : Nat → Prop) [DecidablePred P] [DecidablePred Q] (a b : Nat)
    (h : ∀ v, a ≤ v → v ≤ b → v % 2 = 1 → (P v ↔ Q v)) :
    oddCount P a b = oddCount Q a b := by
  unfold oddCount
  congr 1
  refine Finset.filter_congr ?_
  intro v hv
  rcases Finset.mem_Icc.mp hv with ⟨h1, h2⟩
  constructor
  · rintro ⟨h3, h4⟩
    exact ⟨h3, (h v h1 h2 h3).mp h4⟩
  · rintro ⟨h3, h4⟩
    exact ⟨h3, (h v h1 h2 h3).mpr h4⟩

/-- The counting loop adds, to `count`, the number of odd positions of
`[n, high]` whose sieve entry (relative to `low`) is still `true`, and
leaves the cursor at the first odd value past `high`. -/
theorem countLoop_spec (sv : List Bool) (high low : Nat) :
    ∀ n count, n % 2 = 1 →
      (countLoop sv n high low count).1 =
        count + oddCount (fun v => sv.getD (v - low) false = true) n high ∧
      (countLoop sv n high low count).2 % 2 = 1 ∧
      n ≤ (countLoop sv n high low count).2 ∧
      high < (countLoop sv n high low count).2 ∧
      (countLoop sv n high low count).2 ≤ max n (high + 2) := by
  intro n count hodd
  by_cases h : n ≤ high
  · rw [countLoop, dif_pos h]
    obtain ⟨ih1, ih2, ih3, ih4, ih5⟩ :=
      countLoop_spec sv high low (n + 2)
        (if sv.getD (n - low) false then count + 1 else count) (by omega)
    refine ⟨?_, ih2, by omega, ih4, by omega⟩
    rw [ih1, oddCount_step _ _ _ hodd h]
    by_cases hb : sv.getD (n - low) false = true
    · rw [if_pos hb, if_pos hb]
      omega
    · rw [if_neg hb, if_neg hb]
      omega
  · rw [countLoop, dif_neg h]
    refine ⟨?_, hodd, le_refl n, by omega, by omega⟩
    rw [oddCount_empty _ _ _ (by omega)]
    simp
termination_by n => high + 1 - n
decreasing_by omega

/-! ### Survival: an odd value is unmarked iff it is prime -/

/-- An odd `3 ≤ n ≤ high` lies on the chain of some odd prime
`p ≤ ⌊√high⌋` iff it is composite. -/
theorem chain_factor_iff (high B : Nat) {n : Nat} (h3 : 3 ≤ n) (ho : n % 2 = 1)
    (hn : n ≤ high) (hB : Nat.sqrt high ≤ B) :
    (∃ p, Nat.Prime p ∧ p % 2 = 1 ∧ p ≤ B ∧ inChain p n) ↔ ¬ Nat.Prime n := by
  constructor
  · rintro ⟨p, hp, hpo, hps, t, hchain⟩
    have hp3 : 3 ≤ p := odd_prime_three_le hp hpo
    have hdvd : p ∣ n := ⟨p + 2 * t, by rw [hchain]; ring⟩
    have hsq : p * p ≤ n := by rw [hchain]; omega
    intro hnp
    rcases hnp.eq_one_or_self_of_dvd p hdvd with h1 | h1
    · omega
    · subst h1; nlinarith
  · intro hnp
    have hne : n ≠ 1 := by omega
    have hp := Nat.minFac_prime hne
    have hdvd := Nat.minFac_dvd n
    have hsq : n.minFac * n.minFac ≤ n := by
      have := Nat.minFac_sq_le_self (by omega) hnp
      nlinarith [this]
    have hpo : n.minFac % 2 = 1 := by
      rcases hp.eq_two_or_odd with h2 | h2
      · exfalso
        have : (2 : Nat) ∣ n := h2 ▸ hdvd
        omega
      · exact h2
    refine ⟨n.minFac, hp, hpo, le_trans (Nat.le_sqrt.mpr (le_trans hsq hn)) hB, ?_⟩
    obtain ⟨p, hpeq⟩ : ∃ p, n.minFac = p := ⟨_, rfl⟩
    rw [hpeq] at hp hdvd hsq hpo ⊢
    have hp0 : 0 < p := hp.pos
    obtain ⟨m, hm⟩ := hdvd
    have hmp : p ≤ m := by nlinarith
    have hmo : m % 2 = 1 := by
      rcases Nat.even_or_odd m with he | hodd
      · exfalso
        obtain ⟨r, hr⟩ := he
        have hcon : n = 2 * (p * r) := by rw [hm, hr]; ring
        omega
      · obtain ⟨r, hr⟩ := hodd
        omega
    obtain ⟨t, ht⟩ : ∃ t, m = p + 2 * t := ⟨(m - p) / 2, by omega⟩
    exact ⟨t, by rw [hm, ht]; ring⟩

/-! ### The executable primality test -/

theorem isPrimeAuxB_true_iff (n : Nat) :
    ∀ fuel d, 2 ≤ d → Nat.sqrt n < d + fuel →
      (isPrimeAuxB n d fuel = true ↔ ∀ m, d ≤ m → m * m ≤ n → ¬ m ∣ n) := by
  intro fuel
  induction fuel with
  | zero =>
    intro d hd hsq
    rw [isPrimeAuxB]
    simp only [true_iff]
    intro m hm1 hm2 _
    have := Nat.le_sqrt.mpr hm2
    omega
  | succ fuel ih =>
    intro d hd hsq
    rw [isPrimeAuxB]
    by_cases h1 : n < d * d
    · rw [if_pos h1]
      simp only [true_iff]
      intro m hm1 hm2 _
      have : d * d ≤ m * m := Nat.mul_le_mul hm1 hm1
      omega
    · rw [if_neg h1]
      by_cases h2 : n % d = 0
      · have hb : (n % d == 0) = true := by simp [h2]
        rw [hb]
        constructor
        · intro hfalse
          simp at hfalse
        · intro hall
          exact absurd (Nat.dvd_of_mod_eq_zero h2) (hall d (le_refl d) (by omega))
      · have hb : (n % d == 0) = false := by simp [h2]
        rw [hb, if_neg Bool.false_ne_true]
        rw [ih (d + 1) (by omega) (by omega)]
        constructor
        · intro hall m hm1 hm2
          rcases Nat.eq_or_lt_of_le hm1 with rfl | hlt
          · intro hdvd
            obtain ⟨c, rfl⟩ := hdvd
            exact h2 (Nat.mul_mod_right d c)
          · exact hall m (by omega) hm2
        · intro hall m hm1 hm2
          exact hall m (by omega) hm2

theorem isPrimeB_iff (n : Nat) : isPrimeB n = true ↔ Nat.Prime n := by
  unfold isPrimeB
  by_cases h : n < 2
  · rw [if_pos h]
    constructor
    · intro hfalse
      cases hfalse
    · intro hp
      have := hp.two_le
      omega
  · rw [if_neg h]
    rw [isPrimeAuxB_true_iff n n 2 (le_refl 2) (by have := Nat.sqrt_le_self n; omega)]
    rw [Nat.prime_def_le_sqrt]
    constructor
    · intro hall
      exact ⟨by omega, fun m hm1 hm2 => hall m hm1 (Nat.le_sqrt.mp hm2)⟩
    · rintro ⟨-, hall⟩
      intro m hm1 hm2
      exact hall m hm1 (Nat.le_sqrt.mpr hm2)

theorem countPrimesBelow_eq : ∀ n, countPrimesBelow n = ((Finset.range n).filter Nat.Prime).card := by
  intro n
  induction n with
  | zero => simp [countPrimesBelow]
  | succ n ih =>
    rw [countPrimesBelow, ih, Finset.range_succ, Finset.filter_insert]
    by_cases hp : Nat.Prime n
    · rw [if_pos hp, Finset.card_insert_of_not_mem (fun hc =>
        absurd (Finset.mem_range.mp (Finset.mem_filter.mp hc).1) (lt_irrefl n))]
      have hb : isPrimeB n = true := (isPrimeB_iff n).mpr hp
      rw [hb]
      simp
    · rw [if_neg hp]
      have hb : isPrimeB n = false := by
        cases hv : isPrimeB n
        · rfl
        · exact absurd ((isPrimeB_iff n).mp hv) hp
      rw [hb]
      simp

/-! ### Prime counting equalities -/

theorem primeCount_mono {a b : Nat} (h : a ≤ b) : primeCount a ≤ primeCount b := by
  unfold primeCount
  apply Finset.card_le_card
  intro v hv
  rcases Finset.mem_filter.mp hv with ⟨h1, h2⟩
  exact Finset.mem_filter.mpr ⟨Finset.mem_range.mpr (by
    have := Finset.mem_range.mp h1
    omega), h2⟩

/-- The number of primes `≤ limit` equals the initial count (`1` iff
`limit ≥ 2`, accounting for the prime `2`) plus the number of odd primes
in `[3, limit]`. -/
theorem primeCount_split (limit : Nat) :
    primeCount limit = (if limit < 2 then 0 else 1) + oddCount Nat.Prime 3 limit := by
  unfold primeCount oddCount
  by_cases h2 : limit < 2
  · rw [if_pos h2]
    have he1 : (Finset.range (limit + 1)).filter Nat.Prime = ∅ := by
      ext v
      simp only [Finset.mem_filter, Finset.mem_range, Finset.not_mem_empty, iff_false,
        not_and]
      intro hv hp
      have := hp.two_le
      omega
    have he2 : Finset.Icc 3 limit = ∅ := Finset.Icc_eq_empty (by omega)
    rw [he1, he2]
    simp
  · rw [if_neg h2]
    have hsplit : (Finset.range (limit + 1)).filter Nat.Prime =
        {2} ∪ (Finset.Icc 3 limit).filter (fun v => v % 2 = 1 ∧ Nat.Prime v) := by
      ext v
      simp only [Finset.mem_filter, Finset.mem_range, Finset.mem_union, Finset.mem_singleton,
        Finset.mem_Icc]
      constructor
      · rintro ⟨h1, hp⟩
        rcases hp.eq_two_or_odd with rfl | hodd
        · exact Or.inl rfl
        · exact Or.inr ⟨⟨odd_prime_three_le hp hodd, by omega⟩, hodd, hp⟩
      · rintro (rfl | ⟨⟨h1, h3⟩, h4, h5⟩)
        · exact ⟨by omega, Nat.prime_two⟩
        · exact ⟨by omega, h5⟩
    rw [hsplit, Finset.card_union_of_disjoint]
    · simp
    · refine Finset.disjoint_left.mpr ?_
      intro v hv1 hv2
      rw [Finset.mem_singleton] at hv1
      subst hv1
      rcases Finset.mem_filter.mp hv2 with ⟨-, h4, -⟩
      omega

/-! ### The outer-loop invariant -/

/-- All facts that hold of the program state at the start of the outer
loop iteration for the segment beginning at `low` (with `S` the segment
size).  `s_low` locates the shared base-sieve/collection cursor relative
to the previous segment's `sqrt_high`; `pairs` is the per-sieving-prime
offset invariant. -/
structure SieveInv (f : Nat → Nat) (limit S low : Nat) (st : State) : Prop where
  cursors_eq : st.i = st.s
  s_odd : st.s % 2 = 1
  s_ge : 3 ≤ st.s
  ip : ipInv (f limit) st.s st.is_prime
  s_low : (low = 0 ∧ st.s = 3) ∨
    (0 < low ∧ f (low - 1) < st.s ∧ st.s ≤ f (low - 1) + 2)
  primes_mem : ∀ p, p ∈ st.primes ↔ (Nat.Prime p ∧ p % 2 = 1 ∧ p < st.s)
  primes_sorted : st.primes.Pairwise (· < ·)
  pairs : List.Forall₂ (fun p x => IdxInv low p x) st.primes st.indexes
  n_odd : st.n % 2 = 1
  n_ge : 3 ≤ st.n
  n_low : low ≤ st.n
  n_le : st.n ≤ max 3 (low + 1)
  sieve_len : st.sieve.length = S

/-- The invariant holds on entry to the first iteration. -/
theorem initial_inv (f : Nat → Nat) (limit : Nat) (buf : List Bool)
    (hbuf : buf.length = segment_sizeF f limit) :
    SieveInv f limit (segment_sizeF f limit) 0 (initialStateF f limit buf) := by
  have hi : (initialStateF f limit buf).i = 3 := rfl
  have hs : (initialStateF f limit buf).s = 3 := rfl
  have hn : (initialStateF f limit buf).n = 3 := rfl
  have hps : (initialStateF f limit buf).primes = [] := rfl
  have hixs : (initialStateF f limit buf).indexes = [] := rfl
  have hipr : (initialStateF f limit buf).is_prime = List.replicate (f limit + 1) true := rfl
  refine ⟨by rw [hi, hs], by rw [hs], by rw [hs], ⟨by rw [hipr, List.length_replicate], ?_⟩,
    Or.inl ⟨rfl, hs⟩, ?_, ?_, ?_, by rw [hn], by rw [hn], by rw [hn]; omega, by rw [hn]; omega,
    hbuf⟩
  · intro v hvb hvo
    rw [hipr, getD_replicate _ _ (by omega), hs]
    constructor
    · intro hfalse
      cases hfalse
    · rintro ⟨d, hd, hdo, hdc, -, -⟩
      have := odd_prime_three_le hd hdo
      omega
  · intro p
    rw [hps, hs]
    simp only [List.not_mem_nil, false_iff, not_and]
    intro hp hpo
    have := odd_prime_three_le hp hpo
    omega
  · rw [hps]
    exact List.Pairwise.nil
  · rw [hps, hixs]
    exact List.Forall₂.nil

/-- Facts about the base sieve and the sieving-prime vectors at the
moment the marking loop of the segment starting at `low` runs (after
extension and collection), derived from the entry invariant.  `sqh` is
the segment's `sqrt_high`, abstracted by the bounds it satisfies. -/
theorem stage_spec (f : Nat → Nat) (hf : DoubleSqrt f) (limit low sqh : Nat) (st : State)
    (ip1 : List Bool) (i1 : Nat) (ps1 : List Nat) (ixs1 : List Int) (s1 : Nat)
    (hinv : SieveInv f limit (segment_sizeF f limit) low st)
    (hsqle : sqh ≤ f limit)
    (hsqlo : 0 < low → f (low - 1) ≤ sqh)
    (he : extendSieve st.is_prime st.i sqh (f limit) = (ip1, i1))
    (hc : collectPrimes ip1 st.s sqh low st.primes st.indexes = (ps1, ixs1, s1)) :
    i1 = s1 ∧ s1 % 2 = 1 ∧ st.s ≤ s1 ∧ sqh < s1 ∧ s1 ≤ max st.s (sqh + 2) ∧
      ipInv (f limit) s1 ip1 ∧
      (∀ p, p ∈ ps1 ↔ (Nat.Prime p ∧ p % 2 = 1 ∧ p ≤ sqh)) ∧
      (∀ p, p ∈ ps1 ↔ (Nat.Prime p ∧ p % 2 = 1 ∧ p < s1)) ∧
      ps1.Pairwise (· < ·) ∧
      List.Forall₂ (fun p x => IdxInv low p x) ps1 ixs1 ∧
      ip1.length = f limit + 1 := by
  rw [hinv.cursors_eq] at he
  have hext := extendSieve_inv st.is_prime st.s sqh (f limit) hinv.s_odd hinv.s_ge
    hsqle hinv.ip
  simp only [he] at hext
  obtain ⟨hip1, hi1odd, hi1ge, hi1gt, hi1le⟩ := hext
  have hread : ∀ v, 3 ≤ v → v % 2 = 1 → v ≤ sqh → (ip1.getD v true = true ↔ Nat.Prime v) := by
    intro v h3 ho hv
    refine ipInv_read hip1 h3 ho (le_trans hv hsqle) ?_
    have h1 := Nat.sqrt_le_self v
    omega
  have hnew : ∀ q, st.s ≤ q → q ≤ sqh → (low : Int) ≤ ((q * q : Nat) : Int) := by
    intro q hq1 hq2
    rcases hinv.s_low with ⟨hl0, -⟩ | ⟨hpos, hlt, -⟩
    · rw [hl0]
      positivity
    · have hfl := hf.1 (low - 1)
      have h1 : low - 1 < q * q := Nat.sqrt_lt.mp (by omega)
      have h2 : low ≤ q * q := by omega
      exact_mod_cast h2
  have hcol := collectPrimes_spec ip1 sqh low hread st.s st.primes st.indexes hinv.s_odd
    hinv.s_ge hinv.primes_mem hinv.primes_sorted hinv.pairs hnew
  simp only [hc] at hcol
  obtain ⟨cmem, csort, cpairs, cs1odd, hs1ge, hs1gt, hs1le⟩ := hcol
  have hi1s1 : i1 = s1 := by omega
  have hmemsq : ∀ p, p ∈ ps1 ↔ (Nat.Prime p ∧ p % 2 = 1 ∧ p ≤ sqh) := by
    intro p
    rw [cmem p]
    constructor
    · rintro ⟨hp, hpo, hps⟩
      refine ⟨hp, hpo, ?_⟩
      by_contra hgt
      push_neg at hgt
      have hp3 := odd_prime_three_le hp hpo
      rcases le_or_lt s1 (sqh + 2) with hcase | hcase
      · omega
      · have hs1eq : s1 = st.s := by omega
        rcases hinv.s_low with ⟨-, hs3⟩ | ⟨hpos, -, hlt2⟩
        · omega
        · have := hsqlo hpos
          omega
    · rintro ⟨hp, hpo, hps⟩
      exact ⟨hp, hpo, by omega⟩
  exact ⟨hi1s1, cs1odd, hs1ge, hs1gt, hs1le, hi1s1 ▸ hip1, hmemsq, cmem, csort, cpairs, hip1.1⟩

theorem forall₂_exists_of_mem {R : Nat → Int → Prop} :
    ∀ {l1 : List Nat} {l2 : List Int}, List.Forall₂ R l1 l2 → ∀ {a}, a ∈ l1 →
      ∃ b, (a, b) ∈ l1.zip l2 ∧ R a b := by
  intro l1 l2 hf
  induction hf with
  | nil =>
    intro a ha
    cases ha
  | cons hr hrest ih =>
    intro a ha
    rcases List.mem_cons.mp ha with rfl | ha1
    · exact ⟨_, List.mem_cons_self _ _, hr⟩
    · obtain ⟨b, hb1, hb2⟩ := ih ha1
      exact ⟨b, List.mem_cons_of_mem _ hb1, hb2⟩

theorem forall₂_zipWith_transfer {R R2 : Nat → Int → Prop} (f : Nat → Int → Int) :
    ∀ {l1 : List Nat} {l2 : List Int}, List.Forall₂ R l1 l2 →
      (∀ p x, R p x → R2 p (f p x)) → List.Forall₂ R2 l1 (List.zipWith f l1 l2) := by
  intro l1 l2 hf
  induction hf with
  | nil =>
    intro _
    exact List.Forall₂.nil
  | cons hr hrest ih =>
    intro htr
    exact List.Forall₂.cons (htr _ _ hr) (ih htr)

/-- The heart of the verification: one outer-loop iteration adds to the
count exactly the number of odd primes in `[st.n, high]`, advances the
counting cursor, and preserves the invariant for the next segment. -/
theorem segmentStep_inv (f : Nat → Nat) (hf : DoubleSqrt f) (limit low : Nat) (st : State)
    (hlow : low ≤ limit)
    (hinv : SieveInv f limit (segment_sizeF f limit) low st) :
    (segmentStepF f limit (segment_sizeF f limit) (f limit) low st).count =
        st.count + oddCount Nat.Prime st.n (min (low + segment_sizeF f limit - 1) limit) ∧
      st.n ≤ (segmentStepF f limit (segment_sizeF f limit) (f limit) low st).n ∧
      (low + segment_sizeF f limit ≤ limit →
        SieveInv f limit (segment_sizeF f limit) (low + segment_sizeF f limit)
          (segmentStepF f limit (segment_sizeF f limit) (f limit) low st)) := by
  have hS32 : 32768 ≤ segment_sizeF f limit := le_max_right (f limit) 32768
  have hhle : min (low + segment_sizeF f limit - 1) limit ≤ limit := min_le_right _ _
  have hhge : low ≤ min (low + segment_sizeF f limit - 1) limit := le_min (by omega) hlow
  have hsqle : f (min (low + segment_sizeF f limit - 1) limit) ≤ f limit :=
    hf.2.2 _ _ hhle
  have hsqlo : 0 < low → f (low - 1) ≤
      f (min (low + segment_sizeF f limit - 1) limit) :=
    fun h => hf.2.2 _ _ (by omega)
  obtain ⟨ip1, i1, he⟩ : ∃ a b, extendSieve st.is_prime st.i
      (f (min (low + segment_sizeF f limit - 1) limit)) (f limit) = (a, b) :=
    ⟨_, _, rfl⟩
  obtain ⟨ps1, ixs1, s1, hc⟩ : ∃ a b c, collectPrimes ip1 st.s
      (f (min (low + segment_sizeF f limit - 1) limit)) low st.primes st.indexes =
      (a, b, c) := ⟨_, _, _, rfl⟩
  obtain ⟨sv1, ixs2, hm⟩ : ∃ a b, markAll (List.replicate st.sieve.length true) ps1 ixs1
      (segment_sizeF f limit) = (a, b) := ⟨_, _, rfl⟩
  obtain ⟨cnt1, n1, hcl⟩ : ∃ a b, countLoop sv1 st.n
      (min (low + segment_sizeF f limit - 1) limit) low st.count = (a, b) := ⟨_, _, rfl⟩
  have hstep : segmentStepF f limit (segment_sizeF f limit) (f limit) low st =
      { i := i1, s := s1, n := n1, sieve := sv1, is_prime := ip1,
        primes := ps1, indexes := ixs2, count := cnt1 } := by
    simp only [segmentStepF, he, hc, hm, hcl]
  obtain ⟨hi1s1, hs1odd, hs1ge, hs1gt, hs1le, hip1s, hmemsq, cmem, csort, cpairs, hiplen⟩ :=
    stage_spec f hf limit low (f (min (low + segment_sizeF f limit - 1) limit)) st
      ip1 i1 ps1 ixs1 s1 hinv hsqle hsqlo he hc
  have hmem3 : ∀ p, p ∈ ps1 → 3 ≤ p := by
    intro p hp
    obtain ⟨h1, h2, -⟩ := (hmemsq p).mp hp
    exact odd_prime_three_le h1 h2
  have hpairs_pos : List.Forall₂ (fun p x => 0 < p ∧ 0 ≤ x) ps1 ixs1 := by
    refine List.forall₂_iff_zip.mpr ⟨cpairs.length_eq, ?_⟩
    intro a b hab
    have hmem := (List.of_mem_zip hab).1
    have hIdx : IdxInv low a b := (List.forall₂_iff_zip.mp cpairs).2 hab
    exact ⟨by have := hmem3 a hmem; omega, hIdx.1⟩
  -- the marked working sieve answers primality on the counted range
  have hP : ∀ v, st.n ≤ v → v ≤ min (low + segment_sizeF f limit - 1) limit → v % 2 = 1 →
      (sv1.getD (v - low) false = true ↔ Nat.Prime v) := by
    intro v hv1 hv2 hvo
    have hv3 : 3 ≤ v := le_trans hinv.n_ge hv1
    have hvlow : low ≤ v := le_trans hinv.n_low hv1
    have hmS : v - low < segment_sizeF f limit := by omega
    have hgd := markAll_getD (segment_sizeF f limit) ps1 ixs1
      (List.replicate st.sieve.length true) (v - low) hpairs_pos
    rw [hm] at hgd
    simp only at hgd
    have hrep : (List.replicate st.sieve.length true).getD (v - low) false = true :=
      getD_replicate _ _ (by rw [hinv.sieve_len]; omega)
    have hcov : (∃ pr ∈ ps1.zip ixs1, ((v - low : Nat) : Int) < segment_sizeF f limit ∧
        ∃ t : Nat, ((v - low : Nat) : Int) = pr.2 + (pr.1 * 2 : Nat) * t) ↔
        ¬ Nat.Prime v := by
      rw [← chain_factor_iff (min (low + segment_sizeF f limit - 1) limit)
        (f (min (low + segment_sizeF f limit - 1) limit)) hv3 hvo hv2 (hf.1 _)]
      constructor
      · rintro ⟨pr, hpr, -, ht⟩
        have hmemp := (List.of_mem_zip hpr).1
        have hIdx : IdxInv low pr.1 pr.2 := (List.forall₂_iff_zip.mp cpairs).2
          (by rcases pr with ⟨a, b⟩; exact hpr)
        obtain ⟨hp1, hp2, hp3⟩ := (hmemsq pr.1).mp hmemp
        refine ⟨pr.1, hp1, hp2, hp3, ?_⟩
        have := (pair_marks_iff hIdx (hmem3 _ hmemp) (v - low)).mp ht
        rwa [Nat.add_sub_cancel' hvlow] at this
      · rintro ⟨p, hp1, hp2, hp3, hchain⟩
        have hmemp : p ∈ ps1 := (hmemsq p).mpr ⟨hp1, hp2, hp3⟩
        obtain ⟨x, hzip, hIdx⟩ := forall₂_exists_of_mem cpairs hmemp
        refine ⟨(p, x), hzip, by exact_mod_cast hmS, ?_⟩
        refine (pair_marks_iff hIdx (hmem3 _ hmemp) (v - low)).mpr ?_
        rwa [Nat.add_sub_cancel' hvlow]
      -- done
    constructor
    · intro htrue
      by_contra hnp
      have hfalse := hgd.mpr (Or.inr (hcov.mpr hnp))
      rw [htrue] at hfalse
      simp at hfalse
    · intro hp
      cases hval : sv1.getD (v - low) false
      · rcases hgd.mp hval with h1 | h1
        · rw [hrep] at h1
          cases h1
        · exact absurd (hcov.mp h1) (by simpa using hp)
      · rfl
  -- the counting loop
  obtain ⟨hcnt, hn1odd, hn1ge, hn1gt, hn1le⟩ :=
    countLoop_spec sv1 (min (low + segment_sizeF f limit - 1) limit) low st.n st.count hinv.n_odd
  rw [hcl] at hcnt hn1odd hn1ge hn1gt hn1le
  simp only at hcnt hn1odd hn1ge hn1gt hn1le
  refine ⟨?_, ?_, ?_⟩
  · rw [hstep]
    show cnt1 = st.count + oddCount Nat.Prime st.n (min (low + segment_sizeF f limit - 1) limit)
    rw [hcnt]
    congr 1
    exact oddCount_congr _ _ _ _ (fun v h1 h2 h3 => hP v h1 h2 h3)
  · rw [hstep]
    exact hn1ge
  · intro hnext
    have hhigh_eq : min (low + segment_sizeF f limit - 1) limit = low + segment_sizeF f limit - 1 :=
      min_eq_left (by omega)
    have hsq1 : 1 ≤ f (min (low + segment_sizeF f limit - 1) limit) := by
      have hq1 : 1 ≤ Nat.sqrt (min (low + segment_sizeF f limit - 1) limit) :=
        Nat.le_sqrt.mpr (by omega)
      have hq2 := hf.1 (min (low + segment_sizeF f limit - 1) limit)
      omega
    have hsts : st.s ≤ f (min (low + segment_sizeF f limit - 1) limit) + 2 := by
      rcases hinv.s_low with ⟨-, hs3⟩ | ⟨hpos, -, hlt2⟩
      · omega
      · have := hsqlo hpos
        omega
    have hixs2 : ixs2 = List.zipWith
        (fun p x => (markSieve (List.replicate st.sieve.length true) x (p * 2)
          (segment_sizeF f limit)).2 - ((segment_sizeF f limit : Nat) : Int)) ps1 ixs1 := by
      have := markAll_snd (segment_sizeF f limit) ps1 ixs1
        (List.replicate st.sieve.length true) cpairs.length_eq
      rw [hm] at this
      exact this
    rw [hstep]
    refine ⟨hi1s1, hs1odd, le_trans hinv.s_ge hs1ge, hip1s, ?_, cmem, csort, ?_, hn1odd,
      le_trans hinv.n_ge hn1ge, ?_, ?_, ?_⟩
    · refine Or.inr ⟨by omega, ?_, ?_⟩
      · show f (low + segment_sizeF f limit - 1) < s1
        rw [← hhigh_eq]
        exact hs1gt
      · show s1 ≤ f (low + segment_sizeF f limit - 1) + 2
        rw [← hhigh_eq]
        omega
    · show List.Forall₂ (fun p x => IdxInv (low + segment_sizeF f limit) p x) ps1 ixs2
      rw [hixs2]
      have hcpairs3 : List.Forall₂ (fun p x => IdxInv low p x ∧ 3 ≤ p) ps1 ixs1 := by
        refine List.forall₂_iff_zip.mpr ⟨cpairs.length_eq, ?_⟩
        intro a b hab
        exact ⟨(List.forall₂_iff_zip.mp cpairs).2 hab, hmem3 a (List.of_mem_zip hab).1⟩
      refine forall₂_zipWith_transfer _ hcpairs3 ?_
      intro p x hR
      exact IdxInv_next _ _ hR.2 hR.1
    · show low + segment_sizeF f limit ≤ n1
      omega
    · show n1 ≤ max 3 (low + segment_sizeF f limit + 1)
      have := hinv.n_le
      omega
    · show sv1.length = segment_sizeF f limit
      have := markAll_length (segment_sizeF f limit) ps1 ixs1 (List.replicate st.sieve.length true)
      rw [hm] at this
      simp only at this
      rw [this, List.length_replicate, hinv.sieve_len]

/-! ### The outer loop -/

/-- The invariant holds on entry to every reachable segment. -/
theorem stateAtF_inv (f : Nat → Nat) (hf : DoubleSqrt f) (limit : Nat) :
    ∀ k, k * segment_sizeF f limit ≤ limit →
      SieveInv f limit (segment_sizeF f limit) (k * segment_sizeF f limit)
        (stateAtF f limit k) := by
  intro k
  induction k with
  | zero =>
    intro _
    rw [stateAtF]
    have h0 : 0 * segment_sizeF f limit = 0 := by omega
    rw [h0]
    exact initial_inv f limit _ (List.length_replicate _ _)
  | succ k ih =>
    intro hk
    have hS32 : 32768 ≤ segment_sizeF f limit := le_max_right (f limit) 32768
    have hmul : (k + 1) * segment_sizeF f limit =
        k * segment_sizeF f limit + segment_sizeF f limit := by
      ring
    have hk1 : k * segment_sizeF f limit ≤ limit := by omega
    have hstep := (segmentStep_inv f hf limit (k * segment_sizeF f limit)
      (stateAtF f limit k) hk1 (ih hk1)).2.2
    have hnext : k * segment_sizeF f limit + segment_sizeF f limit ≤ limit := by omega
    rw [stateAtF, hmul]
    exact hstep hnext

/-- The invariant along the exact-square-root instantiation of the
run. -/
theorem stateAt_inv (limit : Nat) :
    ∀ k, k * segment_size limit ≤ limit →
      SieveInv Nat.sqrt limit (segment_size limit) (k * segment_size limit)
        (stateAt limit k) :=
  fun k hk => stateAtF_inv Nat.sqrt doubleSqrt_natSqrt limit k hk

/-- The outer loop, started at any reachable segment with the invariant,
adds exactly the number of odd primes in `[st.n, limit]`. -/
theorem segLoop_count (f : Nat → Nat) (hf : DoubleSqrt f) (limit : Nat) :
    ∀ low st, low ≤ limit → SieveInv f limit (segment_sizeF f limit) low st →
      (segLoopF f limit (segment_sizeF f limit) (f limit) low st).count =
        st.count + oddCount Nat.Prime st.n limit := by
  intro low st hlow hinv
  have hS32 : 32768 ≤ segment_sizeF f limit := le_max_right (f limit) 32768
  rw [segLoopF, dif_pos ⟨hlow, by omega⟩]
  obtain ⟨hcount, hnle, hnext⟩ := segmentStep_inv f hf limit low st hlow hinv
  by_cases hrec : low + segment_sizeF f limit ≤ limit
  · have hinv2 := hnext hrec
    have ih := segLoop_count f hf limit (low + segment_sizeF f limit)
      (segmentStepF f limit (segment_sizeF f limit) (f limit) low st) hrec hinv2
    rw [ih, hcount]
    have hhigh_eq : min (low + segment_sizeF f limit - 1) limit =
        low + segment_sizeF f limit - 1 :=
      min_eq_left (by omega)
    rw [hhigh_eq]
    have hsplit := oddCount_split Nat.Prime st.n (low + segment_sizeF f limit - 1) limit
      (segmentStepF f limit (segment_sizeF f limit) (f limit) low st).n hinv2.n_odd
      (le_trans hnle (le_refl _)) (by have := hinv2.n_low; omega)
      (by have := hinv2.n_le; omega) (by omega)
    omega
  · rw [segLoopF, dif_neg (by omega)]
    rw [hcount]
    have hhigh_eq : min (low + segment_sizeF f limit - 1) limit = limit :=
      min_eq_right (by omega)
    rw [hhigh_eq]

/-- The count of the program equals the number of primes `≤ limit`, for
*every* pipeline behaviour `f` satisfying the contract and any initial
working-sieve buffer of the allocated length: the pipeline's one-sided
rounding provably cannot alter the count. -/
theorem countFromF_eq (f : Nat → Nat) (hf : DoubleSqrt f) (buf : List Bool) (limit : Nat)
    (hbuf : buf.length = segment_sizeF f limit) :
    segmented_sieve_countFromF f buf limit = primeCount limit := by
  unfold segmented_sieve_countFromF
  rw [segLoop_count f hf limit 0 (initialStateF f limit buf) (Nat.zero_le _)
    (initial_inv f limit buf hbuf)]
  rw [primeCount_split]
  have h1 : (initialStateF f limit buf).count = if limit < 2 then 0 else 1 := rfl
  have h2 : (initialStateF f limit buf).n = 3 := rfl
  rw [h1, h2]

/-- The count of the program equals the number of primes `≤ limit`. -/
theorem count_eq_primeCount (limit : Nat) : segmented_sieve_count limit = primeCount limit :=
  countFromF_eq Nat.sqrt doubleSqrt_natSqrt _ limit (List.length_replicate _ _)

/-- The outer loop performs exactly `limit / segment_size + 1`
iterations: started at segment `k` it finishes in the state reached
after segment `limit / segment_size`. -/
theorem segLoop_stateAtF (f : Nat → Nat) (limit : Nat) :
    ∀ k, k ≤ limit / segment_sizeF f limit + 1 →
      segLoopF f limit (segment_sizeF f limit) (f limit) (k * segment_sizeF f limit)
          (stateAtF f limit k) =
        stateAtF f limit (limit / segment_sizeF f limit + 1) := by
  intro k hk
  have hS32 : 32768 ≤ segment_sizeF f limit := le_max_right (f limit) 32768
  by_cases hrun : k * segment_sizeF f limit ≤ limit
  · rw [segLoopF, dif_pos ⟨hrun, by omega⟩]
    have hdiv : k ≤ limit / segment_sizeF f limit :=
      (Nat.le_div_iff_mul_le (by omega)).mpr hrun
    have heq : k * segment_sizeF f limit + segment_sizeF f limit =
        (k + 1) * segment_sizeF f limit := by
      ring
    have hst : segmentStepF f limit (segment_sizeF f limit) (f limit)
        (k * segment_sizeF f limit) (stateAtF f limit k) = stateAtF f limit (k + 1) := by
      rw [stateAtF]
    rw [heq, hst]
    exact segLoop_stateAtF f limit (k + 1) (by omega)
  · rw [segLoopF, dif_neg (by omega)]
    have hkeq : k = limit / segment_sizeF f limit + 1 := by
      rcases Nat.eq_or_lt_of_le hk with heq | hlt
      · exact heq
      · exfalso
        have hkd : k ≤ limit / segment_sizeF f limit := by omega
        have : k * segment_sizeF f limit ≤
            (limit / segment_sizeF f limit) * segment_sizeF f limit :=
          Nat.mul_le_mul_right _ hkd
        have := Nat.div_mul_le_self limit (segment_sizeF f limit)
        omega
    rw [hkeq]
termination_by k => limit / segment_sizeF f limit + 2 - k
decreasing_by omega

/-! ### The state at marking time -/

/-- The `primes` and `indexes` vectors (and the collection cursor) at
the moment segment `k`'s marking loop runs: the entry state of segment
`k` after base-sieve extension and sieving-prime collection, with
pipeline behaviour `f`. -/
def markingStateF (f : Nat → Nat) (limit k : Nat) : List Nat × List Int × Nat :=
  collectPrimes
    (extendSieve (stateAtF f limit k).is_prime (stateAtF f limit k).i
      (f (min (k * segment_sizeF f limit + segment_sizeF f limit - 1) limit))
      (f limit)).1
    (stateAtF f limit k).s
    (f (min (k * segment_sizeF f limit + segment_sizeF f limit - 1) limit))
    (k * segment_sizeF f limit) (stateAtF f limit k).primes (stateAtF f limit k).indexes

/-- The marking-time vectors under the exact-square-root instantiation
of the pipeline. -/
def markingState (limit k : Nat) : List Nat × List Int × Nat :=
  markingStateF Nat.sqrt limit k

/-- At marking time of every reachable segment, the sieving-prime list
is exactly the increasing list of odd primes `≤ sqrt_high = f(high)`,
and each offset satisfies the carried-offset invariant for the segment
start. -/
theorem markingState_specF (f : Nat → Nat) (hf : DoubleSqrt f) (limit k : Nat)
    (hk : k * segment_sizeF f limit ≤ limit) :
    (∀ p, p ∈ (markingStateF f limit k).1 ↔ (Nat.Prime p ∧ p % 2 = 1 ∧
        p ≤ f (min (k * segment_sizeF f limit + segment_sizeF f limit - 1) limit))) ∧
      (markingStateF f limit k).1.Pairwise (· < ·) ∧
      List.Forall₂ (fun p x => IdxInv (k * segment_sizeF f limit) p x)
        (markingStateF f limit k).1 (markingStateF f limit k).2.1 := by
  have hinv := stateAtF_inv f hf limit k hk
  have hhle : min (k * segment_sizeF f limit + segment_sizeF f limit - 1) limit ≤ limit :=
    min_le_right _ _
  obtain ⟨-, -, -, -, -, -, hmemsq, -, hsort, hpairs, -⟩ :=
    stage_spec f hf limit (k * segment_sizeF f limit)
      (f (min (k * segment_sizeF f limit + segment_sizeF f limit - 1) limit))
      (stateAtF f limit k)
      (extendSieve (stateAtF f limit k).is_prime (stateAtF f limit k).i
        (f (min (k * segment_sizeF f limit + segment_sizeF f limit - 1) limit))
        (f limit)).1
      (extendSieve (stateAtF f limit k).is_prime (stateAtF f limit k).i
        (f (min (k * segment_sizeF f limit + segment_sizeF f limit - 1) limit))
        (f limit)).2
      (markingStateF f limit k).1 (markingStateF f limit k).2.1 (markingStateF f limit k).2.2
      hinv (hf.2.2 _ _ hhle) (fun h => hf.2.2 _ _ (by omega)) rfl rfl
  exact ⟨hmemsq, hsort, hpairs⟩

/-- The marking-time facts under the exact-square-root instantiation of
the pipeline. -/
theorem markingState_spec (limit k : Nat) (hk : k * segment_size limit ≤ limit) :
    (∀ p, p ∈ (markingState limit k).1 ↔ (Nat.Prime p ∧ p % 2 = 1 ∧
        p ≤ Nat.sqrt (min (k * segment_size limit + segment_size limit - 1) limit))) ∧
      (markingState limit k).1.Pairwise (· < ·) ∧
      List.Forall₂ (fun p x => IdxInv (k * segment_size limit) p x)
        (markingState limit k).1 (markingState limit k).2.1 :=
  markingState_specF Nat.sqrt doubleSqrt_natSqrt limit k hk

/-- The carried-offset invariant determines the offset in closed form:
it is the distance from `low` to the next *odd* multiple of `p` at least
`max(p*p, low)`. -/
theorem IdxInv_closed {low p : Nat} {x : Int} (h3 : 3 ≤ p) (hinv : IdxInv low p x) :
    x = amendedOffset p low := by
  obtain ⟨hx0, t, ht, hmin⟩ := hinv
  unfold amendedOffset
  by_cases hc : low ≤ p * p
  · rw [if_pos hc]
    have ht0 : t = 0 := by
      rcases hmin with h | h
      · exact h
      · by_contra htne
        have ht1 : 1 ≤ (t : Int) := by
          have : 1 ≤ t := by omega
          exact_mod_cast this
        have hp0 : (0 : Int) ≤ 2 * (p : Int) := by positivity
        have h2p : 2 * (p : Int) * 1 ≤ 2 * (p : Int) * t := mul_le_mul_of_nonneg_left ht1 hp0
        have hcast : (low : Int) ≤ (p : Int) * p := by exact_mod_cast hc
        push_cast at ht
        omega
    subst ht0
    push_cast at ht ⊢
    omega
  · rw [if_neg hc]
    push_neg at hc
    have hcast : (p : Int) * p < (low : Int) := by exact_mod_cast hc
    have ht1 : t ≠ 0 := by
      rintro rfl
      push_cast at ht
      omega
    have hxlt : x < 2 * (p : Int) := by
      rcases hmin with h | h
      · exact absurd h ht1
      · exact h
    have key : ((p : Int) * p - low) % (2 * p) = x := by
      have heq : (p : Int) * p - low = x + (2 * (p : Int)) * (-(t : Int)) := by
        push_cast at ht
        linarith
      rw [heq, Int.add_mul_emod_self_left]
      exact Int.emod_eq_of_lt hx0 hxlt
    push_cast
    exact key.symm

theorem forall₂_exists_of_mem_right {R : Nat → Int → Prop} :
    ∀ {l1 : List Nat} {l2 : List Int}, List.Forall₂ R l1 l2 → ∀ {b}, b ∈ l2 →
      ∃ a, a ∈ l1 ∧ R a b := by
  intro l1 l2 hf
  induction hf with
  | nil =>
    intro b hb
    cases hb
  | cons hr hrest ih =>
    intro b hb
    rcases List.mem_cons.mp hb with rfl | hb1
    · exact ⟨_, List.mem_cons_self _ _, hr⟩
    · obtain ⟨a, ha1, ha2⟩ := ih hb1
      exact ⟨a, List.mem_cons_of_mem _ ha1, ha2⟩

/-! ### Claims -/

set_option maxRecDepth 10000 in
set_option maxHeartbeats 1000000 in
/-- Claim C1: for every non-negative integer `limit`, `segmented_sieve`
computes a count equal to the number of primes `≤ limit`; in particular
the count is 1 for `limit = 2`, 4 for `limit = 10`, 25 for
`limit = 100`, and 168 for `limit = 1000`. -/
theorem segmented_sieve_counts_primes :
    (∀ limit : Nat, segmented_sieve_count limit = primeCount limit) ∧
      segmented_sieve_count 2 = 1 ∧ segmented_sieve_count 10 = 4 ∧
      segmented_sieve_count 100 = 25 ∧ segmented_sieve_count 1000 = 168 := by
  have hc : ∀ m : Nat, segmented_sieve_count m = countPrimesBelow (m + 1) := by
    intro m
    rw [count_eq_primeCount]
    unfold primeCount
    rw [← countPrimesBelow_eq]
  refine ⟨count_eq_primeCount, ?_, ?_, ?_, ?_⟩
  · rw [hc]
    decide
  · rw [hc]
    decide
  · rw [hc]
    decide
  · rw [hc]
    decide

/-- Claim C3, counterexample: the sizing phase does not always produce
the exact integer square root.  At `limit = 2^62 - 1 =
4611686018427387903` the conversion to `double` rounds the 62 one-bits
up to `2^62`, whose square root is exactly `2^31`, so the pipeline
yields `2147483648` while `⌊√limit⌋ = 2147483647`; at
`limit = 67108865^2 - 1 = 4503599761588224` the conversion is exact
(the value fits in 53 bits) but the correctly rounded square root
lands on `67108865` (the true root is within half an ulp below it),
while `⌊√limit⌋ = 67108864`. -/
theorem sizing_not_exact :
    double_sqrt 4611686018427387903 = 2147483648 ∧
      Nat.sqrt 4611686018427387903 = 2147483647 ∧
      double_sqrt 4611686018427387903 ≠ Nat.sqrt 4611686018427387903 ∧
      double_sqrt 4503599761588224 = 67108865 ∧
      Nat.sqrt 4503599761588224 = 67108864 := by
  have hr1 : roundNearest53 4611686018427387903 = 4611686018427387904 := by decide
  have hs1 : Nat.sqrt 4611686018427387904 = 2147483648 :=
    sqrt_eq_of (by norm_num) (by norm_num)
  have hb1 : crdBumps 4611686018427387904 2147483648 = false := by decide
  have hfl1 : Nat.sqrt 4611686018427387903 = 2147483647 :=
    sqrt_eq_of (by norm_num) (by norm_num)
  have hd1 : double_sqrt 4611686018427387903 = 2147483648 := by
    show (if crdBumps (roundNearest53 4611686018427387903)
        (Nat.sqrt (roundNearest53 4611686018427387903)) then
        Nat.sqrt (roundNearest53 4611686018427387903) + 1
      else Nat.sqrt (roundNearest53 4611686018427387903)) = 2147483648
    rw [hr1, hs1, hb1]
    rfl
  have hr2 : roundNearest53 4503599761588224 = 4503599761588224 := by decide
  have hs2 : Nat.sqrt 4503599761588224 = 67108864 :=
    sqrt_eq_of (by norm_num) (by norm_num)
  have hb2 : crdBumps 4503599761588224 67108864 = true := by decide
  have hd2 : double_sqrt 4503599761588224 = 67108865 := by
    show (if crdBumps (roundNearest53 4503599761588224)
        (Nat.sqrt (roundNearest53 4503599761588224)) then
        Nat.sqrt (roundNearest53 4503599761588224) + 1
      else Nat.sqrt (roundNearest53 4503599761588224)) = 67108865
    rw [hr2, hs2, hb2]
    rfl
  refine ⟨hd1, hfl1, ?_, hd2, hs2⟩
  rw [hd1, hfl1]
  omega

/-- Claim C3 (amended): for every non-negative `limit`, the sizing
phase computes `sqrt_limit` by the square-root pipeline, whose value
never falls below `⌊√limit⌋` (where `⌊√limit⌋` is characterised by
`⌊√limit⌋² ≤ limit < (⌊√limit⌋+1)²`) and exceeds it by at most one,
and `segment_size = max(sqrt_limit, 32768)`; hence the segment width
is never evaluated as smaller than `⌊√limit⌋`, including when
`⌊√limit⌋` exceeds the cache-size constant, where the sizing picks the
computed square root itself. -/
theorem sizing_spec_amended :
    ∀ f, DoubleSqrt f → ∀ limit : Nat,
      (Nat.sqrt limit * Nat.sqrt limit ≤ limit ∧
        limit < (Nat.sqrt limit + 1) * (Nat.sqrt limit + 1)) ∧
      Nat.sqrt limit ≤ f limit ∧ f limit ≤ Nat.sqrt limit + 1 ∧
      segment_sizeF f limit = max (f limit) L1D_CACHE_SIZE ∧
      Nat.sqrt limit ≤ segment_sizeF f limit ∧
      (L1D_CACHE_SIZE < Nat.sqrt limit → segment_sizeF f limit = f limit) := by
  intro f hf limit
  refine ⟨⟨Nat.sqrt_le limit, Nat.lt_succ_sqrt limit⟩, hf.1 limit, hf.2.1 limit, rfl,
    le_trans (hf.1 limit) (le_max_left _ _), ?_⟩
  intro h
  have h1 := hf.1 limit
  unfold segment_sizeF
  omega

theorem sizing_spec_amended_witness :
    DoubleSqrt Nat.sqrt ∧ L1D_CACHE_SIZE < Nat.sqrt 1073872900 ∧
      segment_sizeF Nat.sqrt 1073872900 = Nat.sqrt 1073872900 := by
  have hs : Nat.sqrt 1073872900 = 32770 := sqrt_eq_of (by norm_num) (by norm_num)
  have hlt : L1D_CACHE_SIZE < Nat.sqrt 1073872900 := by
    rw [hs]
    norm_num [L1D_CACHE_SIZE]
  exact ⟨doubleSqrt_natSqrt, hlt,
    (sizing_spec_amended Nat.sqrt doubleSqrt_natSqrt 1073872900).2.2.2.2.2 hlt⟩

theorem primeCount_lt_two {m : Nat} (h : m < 2) : primeCount m = 0 := by
  rw [primeCount_split, if_pos h, oddCount_empty _ _ _ (by omega)]

/-- Claim C4, counterexample: for the negative input `-1` the program
does not produce the count `0` (the embedding yields no count at all,
since `(int64_t) std::sqrt(-1)` casts `NaN`, which is undefined
behaviour). -/
theorem negative_limit_no_count : segmented_sieve (-1) ≠ some 0 := by
  decide

/-- Claim C4 (amended): for every *non-negative* `limit < 2` the
resulting prime count is 0; negative limits are outside the core's
contract and produce no count. -/
theorem small_limit_count_zero :
    ∀ limit : Int, 0 ≤ limit → limit < 2 → segmented_sieve limit = some 0 := by
  intro limit h0 h2
  unfold segmented_sieve
  rw [if_neg (by omega)]
  rw [count_eq_primeCount, primeCount_lt_two (by omega)]

theorem small_limit_count_zero_witness :
    (0 : Int) ≤ 0 ∧ (0 : Int) < 2 ∧ segmented_sieve 0 = some 0 :=
  ⟨by decide, by decide, small_limit_count_zero 0 (by decide) (by decide)⟩

/-- Claim C8: the count is monotone in the bound. -/
theorem count_monotone :
    ∀ a b : Nat, a ≤ b → segmented_sieve_count a ≤ segmented_sieve_count b := by
  intro a b h
  rw [count_eq_primeCount, count_eq_primeCount]
  exact primeCount_mono h

theorem count_monotone_witness :
    (3 : Nat) ≤ 10 ∧ segmented_sieve_count 3 ≤ segmented_sieve_count 10 :=
  ⟨by decide, count_monotone 3 10 (by decide)⟩

/-- Claim C2 as stated: at marking time of segment `k`, the
sieving-prime list holds exactly the odd primes `≤ ⌊√high⌋` and each
offset entry equals `p*p + k*p - low` for the smallest `k` making it
non-negative (i.e. the next multiple of `p` that is `≥ max(p*p, low)`,
relative to the segment start). -/
def claimC2 (limit k : Nat) : Prop :=
  (∀ p, p ∈ (markingState limit k).1 ↔ (Nat.Prime p ∧ p % 2 = 1 ∧
      p ≤ Nat.sqrt (min (k * segment_size limit + segment_size limit - 1) limit))) ∧
  List.Forall₂ (fun p x => x = specOffset p (k * segment_size limit))
    (markingState limit k).1 (markingState limit k).2.1

/-- Claim C2, counterexample: in the run for `limit = 98310`, at the
segment `k = 3` (which starts at `low = 98304`), the first sieving
prime is `3` and its carried offset is `3` (the next *odd* multiple of
3, namely `98307`, relative to `low`), whereas the claimed formula
yields `0` (since `98304` itself is a multiple of 3). -/
theorem claimC2_false_at_98310 : ¬ claimC2 98310 3 := by
  intro hclaim
  have hsq : Nat.sqrt 98310 = 313 := sqrt_eq_of (by norm_num) (by norm_num)
  have hseg : segment_size 98310 = 32768 := by
    unfold segment_size segment_sizeF L1D_CACHE_SIZE
    rw [hsq]
    omega
  have hk : 3 * segment_size 98310 ≤ 98310 := by
    rw [hseg]
    omega
  obtain ⟨hmem, hsort, hpairs⟩ := markingState_spec 98310 3 hk
  have hmin : min (3 * segment_size 98310 + segment_size 98310 - 1) 98310 = 98310 := by
    rw [hseg]
    omega
  have h3mem : 3 ∈ (markingState 98310 3).1 := by
    rw [hmem]
    refine ⟨Nat.prime_three, by norm_num, ?_⟩
    rw [hmin, hsq]
    norm_num
  obtain ⟨tail, htail⟩ : ∃ tail, (markingState 98310 3).1 = 3 :: tail := by
    cases hps : (markingState 98310 3).1 with
    | nil =>
      rw [hps] at h3mem
      cases h3mem
    | cons h t =>
      rw [hps] at h3mem hsort hmem
      have hh3 : 3 ≤ h := by
        obtain ⟨hp, hpo, -⟩ := (hmem h).mp (List.mem_cons_self _ _)
        exact odd_prime_three_le hp hpo
      rcases List.mem_cons.mp h3mem with heq | hmemt
      · subst heq
        exact ⟨t, rfl⟩
      · have := (List.pairwise_cons.mp hsort).1 3 hmemt
        omega
  rw [htail] at hpairs
  obtain ⟨x, xt, hx, hxrest, hixs⟩ := List.forall₂_cons_left_iff.mp hpairs
  have hxval : x = amendedOffset 3 (3 * segment_size 98310) :=
    IdxInv_closed (by norm_num) hx
  rw [hseg] at hxval
  have hxval3 : x = 3 := by
    rw [hxval]
    decide
  obtain ⟨-, hcpairs⟩ := hclaim
  rw [htail] at hcpairs
  obtain ⟨y, yt, hy, hyrest, hixs2⟩ := List.forall₂_cons_left_iff.mp hcpairs
  rw [hixs] at hixs2
  simp only [List.cons.injEq] at hixs2
  have hxy : x = y := hixs2.1
  rw [hseg] at hy
  have hyval : y = 0 := by
    rw [hy]
    decide
  rw [hxy, hyval] at hxval3
  cases hxval3

/-- Claim C2 (amended): at marking time of every reachable segment of
the program's run — with the square-root pipeline modelled by any
function `f` satisfying its contract — the sieving-prime list holds
exactly the odd primes `≤ sqrt_high = f(high)`, in increasing order; in
particular it contains every odd prime `≤ ⌊√high⌋` and nothing above
`⌊√high⌋ + 1` (the pipeline's one-sided rounding admits at most the
single extra value `⌊√high⌋ + 1`).  The offset of prime `p` equals
`p*p + 2*k*p - low` for the smallest `k : ℕ` making it non-negative —
the next *odd* multiple of `p` that is `≥ max(p*p, low)`, relative to
the segment start (the program steps by `2*p`, not `p`). -/
theorem marking_invariant_corrected :
    ∀ f, DoubleSqrt f → ∀ limit k : Nat, k * segment_sizeF f limit ≤ limit →
      (∀ p, p ∈ (markingStateF f limit k).1 ↔ (Nat.Prime p ∧ p % 2 = 1 ∧
          p ≤ f (min (k * segment_sizeF f limit + segment_sizeF f limit - 1) limit))) ∧
        (∀ p, Nat.Prime p → p % 2 = 1 →
          p ≤ Nat.sqrt (min (k * segment_sizeF f limit + segment_sizeF f limit - 1) limit) →
          p ∈ (markingStateF f limit k).1) ∧
        (∀ p ∈ (markingStateF f limit k).1,
          p ≤ Nat.sqrt (min (k * segment_sizeF f limit + segment_sizeF f limit - 1) limit)
            + 1) ∧
        (markingStateF f limit k).1.Pairwise (· < ·) ∧
        List.Forall₂ (fun p x => x = amendedOffset p (k * segment_sizeF f limit))
          (markingStateF f limit k).1 (markingStateF f limit k).2.1 := by
  intro f hf limit k hk
  obtain ⟨hmem, hsort, hpairs⟩ := markingState_specF f hf limit k hk
  refine ⟨hmem, ?_, ?_, hsort, ?_⟩
  · intro p hp hpo hple
    exact (hmem p).mpr ⟨hp, hpo, le_trans hple (hf.1 _)⟩
  · intro p hp
    obtain ⟨-, -, hle⟩ := (hmem p).mp hp
    have := hf.2.1 (min (k * segment_sizeF f limit + segment_sizeF f limit - 1) limit)
    omega
  · refine List.forall₂_iff_zip.mpr ⟨hpairs.length_eq, ?_⟩
    intro a b hab
    have hamem := (List.of_mem_zip hab).1
    obtain ⟨hp, hpo, -⟩ := (hmem a).mp hamem
    exact IdxInv_closed (odd_prime_three_le hp hpo) ((List.forall₂_iff_zip.mp hpairs).2 hab)

theorem marking_invariant_corrected_witness :
    DoubleSqrt Nat.sqrt ∧ 0 * segment_sizeF Nat.sqrt 10 ≤ 10 ∧
      ((∀ p, p ∈ (markingStateF Nat.sqrt 10 0).1 ↔ (Nat.Prime p ∧ p % 2 = 1 ∧
          p ≤ Nat.sqrt (min (0 * segment_sizeF Nat.sqrt 10 + segment_sizeF Nat.sqrt 10 - 1)
            10))) ∧
        (∀ p, Nat.Prime p → p % 2 = 1 →
          p ≤ Nat.sqrt (min (0 * segment_sizeF Nat.sqrt 10 + segment_sizeF Nat.sqrt 10 - 1)
            10) →
          p ∈ (markingStateF Nat.sqrt 10 0).1) ∧
        (∀ p ∈ (markingStateF Nat.sqrt 10 0).1,
          p ≤ Nat.sqrt (min (0 * segment_sizeF Nat.sqrt 10 + segment_sizeF Nat.sqrt 10 - 1)
            10) + 1) ∧
        (markingStateF Nat.sqrt 10 0).1.Pairwise (· < ·) ∧
        List.Forall₂ (fun p x => x = amendedOffset p (0 * segment_sizeF Nat.sqrt 10))
          (markingStateF Nat.sqrt 10 0).1 (markingStateF Nat.sqrt 10 0).2.1) :=
  ⟨doubleSqrt_natSqrt, by simp,
    marking_invariant_corrected Nat.sqrt doubleSqrt_natSqrt 10 0 (by simp)⟩

/-- Claim C5: in every segment, for each sieving prime `p` with carried
offset `off`, the marking loop sets `false` exactly the positions
`off, off + 2p, off + 4p, …` of the working sieve that are below the
segment width `S`; the final position `j` is the first chain position
`≥ S`; and the outer loop stores `j - S` back into the offset vector at
the prime's position, to be used as the starting offset of the next
segment. -/
theorem marking_loop_spec :
    ∀ (sv : List Bool) (ps : List Nat) (ixs : List Int) (S p : Nat) (x : Int),
      (0 < p → 0 ≤ x → ∀ m : Nat,
        ((markSieve sv x (p * 2) S).1.getD m false = false ↔
          ((m : Int) < S ∧ ∃ t : Nat, (m : Int) = x + ((p * 2 : Nat) : Int) * t) ∨
            sv.getD m false = false)) ∧
      (0 < p → ∃ u : Nat, (markSieve sv x (p * 2) S).2 = x + ((p * 2 : Nat) : Int) * u ∧
        (S : Int) ≤ (markSieve sv x (p * 2) S).2 ∧
        (u = 0 ∨ (markSieve sv x (p * 2) S).2 - ((p * 2 : Nat) : Int) < S)) ∧
      (ps.length = ixs.length →
        (markAll sv ps ixs S).2 =
          List.zipWith (fun q y => (markSieve sv y (q * 2) S).2 - (S : Int)) ps ixs) := by
  intro sv ps ixs S p x
  refine ⟨?_, ?_, ?_⟩
  · intro hp hx m
    exact markSieve_getD sv x (p * 2) S (by omega) hx m
  · intro hp
    exact markSieve_snd_spec sv x (p * 2) S (by omega)
  · intro hlen
    exact markAll_snd S ps ixs sv hlen

theorem marking_loop_spec_witness :
    (0 : Nat) < 3 ∧ (0 : Int) ≤ 1 ∧ [(3 : Nat)].length = [(1 : Int)].length ∧
      (∀ m : Nat,
        ((markSieve [true, true, true, true, true] 1 (3 * 2) 5).1.getD m false = false ↔
          ((m : Int) < 5 ∧ ∃ t : Nat, (m : Int) = 1 + ((3 * 2 : Nat) : Int) * t) ∨
            [true, true, true, true, true].getD m false = false)) ∧
      (∃ u : Nat, (markSieve [true, true, true, true, true] 1 (3 * 2) 5).2 =
          1 + ((3 * 2 : Nat) : Int) * u ∧
        ((5 : Nat) : Int) ≤ (markSieve [true, true, true, true, true] 1 (3 * 2) 5).2 ∧
        (u = 0 ∨ (markSieve [true, true, true, true, true] 1 (3 * 2) 5).2 -
          ((3 * 2 : Nat) : Int) < 5)) ∧
      (markAll [true, true, true, true, true] [3] [1] 5).2 =
        List.zipWith (fun q y => (markSieve [true, true, true, true, true] y (q * 2) 5).2 -
          ((5 : Nat) : Int)) [3] [1] :=
  ⟨by decide, by decide, by decide,
    (marking_loop_spec [true, true, true, true, true] [3] [1] 5 3 1).1 (by decide) (by decide),
    (marking_loop_spec [true, true, true, true, true] [3] [1] 5 3 1).2.1 (by decide),
    (marking_loop_spec [true, true, true, true, true] [3] [1] 5 3 1).2.2 (by decide)⟩

/-- Claim C6: for every reachable segment, all the bounds that make
every array access of the program in-range hold: the base sieve has
`sqrt+1` entries and is only indexed at positions `≤ sqrt_high ≤ sqrt`
(cursors) or `≤ sqrt` (marking); `primes` and `indexes` have equal
lengths and are traversed together; marking starts at non-negative
offsets and stays `< segment_size` by its guard; and every counted
position satisfies `0 ≤ n - low < segment_size` (the working sieve's
length). -/
theorem access_bounds :
    ∀ limit k : Nat, k * segment_size limit ≤ limit →
      (stateAt limit k).is_prime.length = Nat.sqrt limit + 1 ∧
      Nat.sqrt (min (k * segment_size limit + segment_size limit - 1) limit) ≤
        Nat.sqrt limit ∧
      (markingState limit k).1.length = (markingState limit k).2.1.length ∧
      (∀ x ∈ (markingState limit k).2.1, 0 ≤ x) ∧
      (stateAt limit k).sieve.length = segment_size limit ∧
      (∀ n, (stateAt limit k).n ≤ n →
        n ≤ min (k * segment_size limit + segment_size limit - 1) limit →
        k * segment_size limit ≤ n ∧
          n - k * segment_size limit < segment_size limit) := by
  intro limit k hk
  have hinv := stateAt_inv limit k hk
  obtain ⟨-, -, hpairs⟩ := markingState_spec limit k hk
  have hS32 : 32768 ≤ segment_size limit := le_max_right (Nat.sqrt limit) 32768
  refine ⟨hinv.ip.1, Nat.sqrt_le_sqrt (min_le_right _ _), hpairs.length_eq, ?_,
    hinv.sieve_len, ?_⟩
  · intro x hx
    obtain ⟨a, -, ha⟩ := forall₂_exists_of_mem_right hpairs hx
    exact ha.1
  · intro n hn1 hn2
    have := hinv.n_low
    omega

theorem access_bounds_witness :
    0 * segment_size 10 ≤ 10 ∧
      ((stateAt 10 0).is_prime.length = Nat.sqrt 10 + 1 ∧
      Nat.sqrt (min (0 * segment_size 10 + segment_size 10 - 1) 10) ≤ Nat.sqrt 10 ∧
      (markingState 10 0).1.length = (markingState 10 0).2.1.length ∧
      (∀ x ∈ (markingState 10 0).2.1, 0 ≤ x) ∧
      (stateAt 10 0).sieve.length = segment_size 10 ∧
      (∀ n, (stateAt 10 0).n ≤ n →
        n ≤ min (0 * segment_size 10 + segment_size 10 - 1) 10 →
        0 * segment_size 10 ≤ n ∧ n - 0 * segment_size 10 < segment_size 10)) :=
  ⟨by simp, access_bounds 10 0 (by simp)⟩

/-- Claim C7: every entry of the offset table is non-negative at the
start of every reachable segment's marking loop, so marking never
starts at a negative working-sieve position. -/
theorem offsets_nonneg :
    ∀ limit k : Nat, k * segment_size limit ≤ limit →
      ∀ x ∈ (markingState limit k).2.1, 0 ≤ x := by
  intro limit k hk x hx
  obtain ⟨-, -, hpairs⟩ := markingState_spec limit k hk
  obtain ⟨a, -, ha⟩ := forall₂_exists_of_mem_right hpairs hx
  exact ha.1

theorem offsets_nonneg_witness :
    0 * segment_size 10 ≤ 10 ∧ ∀ x ∈ (markingState 10 0).2.1, 0 ≤ x :=
  ⟨by simp, offsets_nonneg 10 0 (by simp)⟩

/-- Claim C9: the algorithm runs to completion for every non-negative
`limit`: the outer loop over `low` (stepping by
`segment_size ≥ 32768`) equals the bounded iteration of exactly
`limit / segment_size + 1` segment steps, after which
`low = (limit / segment_size + 1) * segment_size > limit`, the loop's
exit condition. -/
theorem loop_terminates :
    ∀ limit : Nat,
      segLoop limit (segment_size limit) (Nat.sqrt limit) 0
          (initialState limit (List.replicate (segment_size limit) false)) =
        stateAt limit (limit / segment_size limit + 1) ∧
      limit < (limit / segment_size limit + 1) * segment_size limit ∧
      32768 ≤ segment_size limit := by
  intro limit
  have hS32 : 32768 ≤ segment_size limit := le_max_right (Nat.sqrt limit) 32768
  refine ⟨?_, ?_, hS32⟩
  · have h := segLoop_stateAtF Nat.sqrt limit 0 (Nat.zero_le _)
    rw [Nat.zero_mul] at h
    exact h
  · have h1 := Nat.div_add_mod limit (segment_size limit)
    have h2 : limit % segment_size limit < segment_size limit :=
      Nat.mod_lt limit (by omega)
    have h3 : (limit / segment_size limit + 1) * segment_size limit =
        segment_size limit * (limit / segment_size limit) + segment_size limit := by
      ring
    omega

/-- Claim C10: the count is a pure function of `limit` (and the
constant `L1D_CACHE_SIZE`): it does not depend on the initial contents
of the working-sieve buffer (which the program refills at the start of
every segment), and the published count is the run from the allocated
all-`false` buffer. -/
theorem deterministic_count :
    (∀ limit : Nat, ∀ b1 b2 : List Bool, b1.length = b2.length →
        segmented_sieve_countFrom b1 limit = segmented_sieve_countFrom b2 limit) ∧
      (∀ limit : Nat, segmented_sieve_count limit =
        segmented_sieve_countFrom (List.replicate (segment_size limit) false) limit) := by
  constructor
  · intro limit b1 b2 hlen
    have hS32 : 32768 ≤ segment_sizeF Nat.sqrt limit := le_max_right (Nat.sqrt limit) 32768
    have hkey : segmentStepF Nat.sqrt limit (segment_sizeF Nat.sqrt limit) (Nat.sqrt limit) 0
        (initialStateF Nat.sqrt limit b1) =
        segmentStepF Nat.sqrt limit (segment_sizeF Nat.sqrt limit) (Nat.sqrt limit) 0
          (initialStateF Nat.sqrt limit b2) := by
      simp only [segmentStepF, initialStateF]
      rw [hlen]
    show (segLoopF Nat.sqrt limit (segment_sizeF Nat.sqrt limit) (Nat.sqrt limit) 0
        (initialStateF Nat.sqrt limit b1)).count =
      (segLoopF Nat.sqrt limit (segment_sizeF Nat.sqrt limit) (Nat.sqrt limit) 0
        (initialStateF Nat.sqrt limit b2)).count
    rw [segLoopF, dif_pos ⟨Nat.zero_le _, by omega⟩]
    conv_rhs => rw [segLoopF, dif_pos ⟨Nat.zero_le _, by omega⟩]
    rw [hkey]
  · intro limit
    rfl

theorem deterministic_count_witness :
    [true].length = [false].length ∧
      segmented_sieve_countFrom [true] 5 = segmented_sieve_countFrom [false] 5 :=
  ⟨by decide, (deterministic_count.1 5 [true] [false]) (by decide)⟩
